import Mathlib

/-!
Verification development for the indexing core of the hdoc-style documentation
generator (Indexer post-passes, AST matcher callbacks and the ignore filter).

Strings of the C++ source (`std::string`) are embedded as `List Char` (`Str`):
`substr` becomes `take`/`drop`, `+=` becomes `++`, `find(substr) != npos`
becomes an executable substring search.  `SymbolID` is embedded as `Nat`, with
`0` as the null (default-constructed) ID, following the spec's data model
("a null value (0) marks unresolved").

Clang AST nodes are embedded as candidate records carrying exactly the data the
matcher callbacks read off the node (flags such as `isDeletedAsWritten`,
results of the out-of-repository helpers such as `isInIgnoreList`, and the
rendered strings produced by the front-end).  Pointer null checks of the C++
have no counterpart here because candidates are values, not pointers.
-/

abbrev Str := List Char

abbrev SymbolID := Nat

/-- The default-constructed `hdoc::types::SymbolID()`: the null ID. -/
def nullID : SymbolID := 0

/-- Does `pat` occur at the start of `s`?  (List-level `starts_with`.) -/
def startsWithL : Str → Str → Bool
  | _, [] => true
  | [], _ :: _ => false
  | a :: as, b :: bs => a == b && startsWithL as bs

/-- `containsSub s pat` models `s.find(pat) != std::string::npos`:
literal, case-sensitive substring search. -/
def containsSub : Str → Str → Bool
  | s, pat =>
    match s with
    | [] => startsWithL [] pat
    | _ :: rest => startsWithL s pat || containsSub rest pat

/-- Member access in the AST: `clang::AccessSpecifier`
(`AS_public` / `AS_protected` / `AS_private` / `AS_none`). -/
inductive Access where
  | pub
  | prot
  | priv
  | nospec
deriving DecidableEq, Repr

/-- The configuration fields the indexing core reads
(`hdoc::types::Config`, restricted to the claim-relevant options). -/
structure Config where
  ignorePaths : List Str := []
  ignoreNamespaces : List Str := []
  ignorePrivateMembers : Bool := false
deriving DecidableEq, Repr

/-- One enclosing `DeclContext` that is a `clang::NamespaceDecl`, as seen by
the parent walk of `isEnclosingNamespaceInList`: either an anonymous
namespace or a named one.  Non-namespace contexts of the C++ walk are skipped
by the `dyn_cast` and are therefore not represented. -/
inductive NSEntry where
  | anon
  | named (name : Str)
deriving DecidableEq, Repr

/-- `hdoc::indexer::matchers::utils::isEnclosingNamespaceInList`: walk the
enclosing namespace contexts from the innermost outwards; skip anonymous
namespaces; return true as soon as some named enclosing namespace's name
contains one of the listed substrings. -/
def isEnclosingNamespaceInList (enclosing : List NSEntry) (list : List Str) : Bool :=
  match enclosing with
  | [] => false
  | NSEntry.anon :: parents => isEnclosingNamespaceInList parents list
  | NSEntry.named name :: parents =>
    if list.any (fun substr => containsSub name substr) then true
    else isEnclosingNamespaceInList parents list

/-- The location data of a declaration that `shouldBeIgnored` reads through
the source manager: validity of the expansion location, presence of a file
entry, and the file name rendered relative to `cfg.rootDir` (the
`std::filesystem::relative` step is part of the environment and the relative
name is carried directly). -/
structure DeclLoc where
  expansionValid : Bool := true
  hasFileEntry : Bool := true
  relFilename : Str := []
deriving DecidableEq, Repr

/-- The AST matcher `shouldBeIgnored` (AST_MATCHER_P in Matchers.hpp): note
that when `cfg.ignorePaths` is empty the function returns `false`
immediately, before the enclosing-namespace check is ever reached. -/
def shouldBeIgnored (cfg : Config) (loc : DeclLoc) (enclosing : List NSEntry) : Bool :=
  if cfg.ignorePaths.length = 0 then false
  else if loc.expansionValid = false then false
  else if loc.hasFileEntry = false then false
  else if cfg.ignorePaths.any (fun substr => containsSub loc.relFilename substr) then true
  else isEnclosingNamespaceInList enclosing cfg.ignoreNamespaces

/-- `hdoc::types::TypeRef`: a rendered type name plus the SymbolID it links
to (null when unresolved). -/
structure TypeRef where
  name : Str := []
  id : SymbolID := nullID
deriving DecidableEq, Repr

/-- `hdoc::types::FunctionParam`. -/
structure FunctionParam where
  name : Str := []
  type : TypeRef := {}
  defaultValue : Str := []
deriving DecidableEq, Repr

/-- `hdoc::types::TemplateParam`, restricted to the field the post-passes
read (`name`); kind, default value and the pack flags are presentation-only
data no claim touches. -/
structure TemplateParam where
  name : Str := []
deriving DecidableEq, Repr

/-- `hdoc::types::FunctionSymbol`, restricted to the fields the claims and
the post-passes read.  The presentation-only qualifier booleans
(`isVariadic`, `isVirtual`, ...) are omitted: no claim and no post-pass
reads them. -/
structure FunctionSymbol where
  ID : SymbolID := nullID
  name : Str := []
  proto : Str := []
  postTemplate : Nat := 0
  nameStart : Nat := 0
  returnType : TypeRef := {}
  params : List FunctionParam := []
  access : Access := Access.nospec
  isRecordMember : Bool := false
  parentNamespaceID : SymbolID := nullID
deriving DecidableEq, Repr

/-- One entry of `RecordSymbol::baseRecords`: `{ id, access, name }`. -/
structure BaseRecord where
  id : SymbolID := nullID
  access : Access := Access.nospec
  name : Str := []
deriving DecidableEq, Repr

/-- `hdoc::types::MemberVariable` (doc comment omitted: presentation-only). -/
structure MemberVariable where
  isStatic : Bool := false
  name : Str := []
  defaultValue : Str := []
  access : Access := Access.nospec
  type : TypeRef := {}
deriving DecidableEq, Repr

/-- `hdoc::types::RecordSymbol`, restricted to the fields the claims and the
post-passes read. -/
structure RecordSymbol where
  ID : SymbolID := nullID
  name : Str := []
  proto : Str := []
  type : Str := []
  access : Access := Access.nospec
  parentNamespaceID : SymbolID := nullID
  templateParams : List TemplateParam := []
  baseRecords : List BaseRecord := []
  methodIDs : List SymbolID := []
  aliasIDs : List SymbolID := []
  vars : List MemberVariable := []
deriving DecidableEq, Repr

/-- `hdoc::types::EnumSymbol` (enumerator list omitted: presentation-only). -/
structure EnumSymbol where
  ID : SymbolID := nullID
  name : Str := []
  type : Str := []
  access : Access := Access.nospec
  parentNamespaceID : SymbolID := nullID
deriving DecidableEq, Repr

/-- `hdoc::types::NamespaceSymbol` with its four child-ID lists, which the
extractor leaves empty and `resolveNamespaces` fills. -/
structure NamespaceSymbol where
  ID : SymbolID := nullID
  name : Str := []
  parentNamespaceID : SymbolID := nullID
  records : List SymbolID := []
  enums : List SymbolID := []
  namespaces : List SymbolID := []
  usings : List SymbolID := []
deriving DecidableEq, Repr

/-- `hdoc::types::AliasSymbol`. -/
structure AliasSymbol where
  ID : SymbolID := nullID
  name : Str := []
  access : Access := Access.nospec
  isRecordMember : Bool := false
  parentNamespaceID : SymbolID := nullID
  target : TypeRef := {}
deriving DecidableEq, Repr

/-- Modelled from the spec: `hdoc::types::Database<T>` (types/Index.hpp is
not among the sources).  A mapping `SymbolID → T` with a running
`numMatches` counter; spec §3 lists `contains`, `reserve(id)`,
`update(id, value)` and an `entries` iterator.  The mapping is embedded as
an association list; the extractor callbacks reach `reserve`/`update` only
behind a `contains` test, so the pair collapses to appending a fresh
entry. -/
structure Database (T : Type) where
  entries : List (SymbolID × T) := []
  numMatches : Nat := 0
deriving DecidableEq, Repr

/-- `Database::contains`. -/
def Database.contains {T : Type} (db : Database T) (id : SymbolID) : Bool :=
  db.entries.any (fun p => p.1 == id)

/-- `Database::reserve(id)` immediately followed by `Database::update(id, v)`
for an `id` the database does not yet contain (the only way the extractor
callbacks use the pair). -/
def Database.insertNew {T : Type} (db : Database T) (id : SymbolID) (v : T) : Database T :=
  { db with entries := db.entries ++ [(id, v)] }

/-- In-place mutation of the entry stored at `id`
(`auto& f = db.entries.at(id); f = g f;`). -/
def Database.mapAt {T : Type} (db : Database T) (id : SymbolID) (g : T → T) : Database T :=
  { db with entries := db.entries.map (fun p => if p.1 = id then (p.1, g p.2) else p) }

/-- In-place mutation of every stored value
(`for (auto& [k, v] : db.entries) v = g v;`). -/
def Database.mapValues {T : Type} (g : T → T) (db : Database T) : Database T :=
  { db with entries := db.entries.map (fun p => (p.1, g p.2)) }

/-- `numMatches++` on one database. -/
def Database.bumpMatches {T : Type} (db : Database T) : Database T :=
  { db with numMatches := db.numMatches + 1 }

/-- `hdoc::types::Index`: the five databases. -/
structure Index where
  functions : Database FunctionSymbol := {}
  records : Database RecordSymbol := {}
  enums : Database EnumSymbol := {}
  namespaces : Database NamespaceSymbol := {}
  aliases : Database AliasSymbol := {}
deriving DecidableEq, Repr

/-- The empty index the indexer starts from. -/
def emptyIndex : Index := {}

/-- `isChild` of Indexer.cpp: `s.parentNamespaceID.raw() == ns.ID.raw()`.
The two symbols enter only through `ns.ID` and `s.parentNamespaceID`, which
are passed here directly (the symbol types have no common Lean parent). -/
def isChild (nsID : SymbolID) (childParentID : SymbolID) : Bool :=
  childParentID == nsID

/-- One inner loop of `Indexer::resolveNamespaces`: the IDs of the entries
of one database whose `parentNamespaceID` equals the namespace's ID, in
entry order (the `emplace_back` loop). -/
def childIDs {T : Type} (entries : List (SymbolID × T)) (nsID : SymbolID)
    (parentOf : T → SymbolID) (idOf : T → SymbolID) : List SymbolID :=
  (entries.filter (fun q => isChild nsID (parentOf q.2))).map (fun q => idOf q.2)

/-- The body of the outer loop of `Indexer::resolveNamespaces` for one
namespace `ns`: append to its four child lists the IDs of the records /
enums / namespaces / aliases whose `parentNamespaceID` equals `ns.ID`. -/
def resolveOneNamespace (idx : Index) (ns : NamespaceSymbol) : NamespaceSymbol :=
  { ns with
    records := ns.records ++
      childIDs idx.records.entries ns.ID (fun v => v.parentNamespaceID) (fun v => v.ID)
    enums := ns.enums ++
      childIDs idx.enums.entries ns.ID (fun v => v.parentNamespaceID) (fun v => v.ID)
    namespaces := ns.namespaces ++
      childIDs idx.namespaces.entries ns.ID (fun v => v.parentNamespaceID) (fun v => v.ID)
    usings := ns.usings ++
      childIDs idx.aliases.entries ns.ID (fun v => v.parentNamespaceID) (fun v => v.ID) }

/-- `Indexer::resolveNamespaces`.  The C++ mutates the namespace entries
while iterating over them, but the mutation only appends to the child lists
while `isChild` reads only `ID` and `parentNamespaceID`, so computing every
child list from the initial index is equivalent. -/
def resolveNamespaces (idx : Index) : Index :=
  { idx with namespaces := Database.mapValues (resolveOneNamespace idx) idx.namespaces }

/-- The `switch (baseRecord.access)` of `Indexer::updateRecordNames`:
`AS_public` / `AS_private` / `AS_protected` append their keyword and a
space; `AS_none` (and the `default` fallthrough) append nothing. -/
def accessStr (a : Access) : Str :=
  match a with
  | Access.pub => "public ".data
  | Access.priv => "private ".data
  | Access.prot => "protected ".data
  | Access.nospec => []

/-- One iteration of the base-record loop of `Indexer::updateRecordNames`:
the accumulated proto plus the `count` counter; a `", "` separator when
`count > 0`, then the access keyword and the base name. -/
def appendBaseStep (acc : Str × Nat) (b : BaseRecord) : Str × Nat :=
  (acc.1 ++ (if acc.2 > 0 then ", ".data else []) ++ accessStr b.access ++ b.name,
   acc.2 + 1)

/-- The inner loop of `Indexer::updateRecordNames`: append `" : "` and then,
for each base record (with `", "` between consecutive ones, tracked by the
`count` counter), the access keyword followed by the base name. -/
def appendBases (proto : Str) (baseRecords : List BaseRecord) : Str :=
  (baseRecords.foldl appendBaseStep (proto ++ " : ".data, (0 : Nat))).1

/-- The rendered contribution of one base record to the inheritance list:
access keyword (empty for access `none`) followed by the base name. -/
def renderBase (b : BaseRecord) : Str := accessStr b.access ++ b.name

/-- Comma-separated concatenation (used to state `appendBases` in closed
form and to render template preludes). -/
def joinStr (sep : Str) : List Str → Str
  | [] => []
  | [x] => x
  | x :: y :: ys => x ++ sep ++ joinStr sep (y :: ys)

/-- The proto that `updateRecordNames` produces for a record with bases, in
closed form: the old proto, `" : "`, and the `", "`-separated rendered
bases. -/
def inheritedProto (c : RecordSymbol) : Str :=
  c.proto ++ " : ".data ++ joinStr ", ".data (c.baseRecords.map renderBase)

/-- The body of the loop of `Indexer::updateRecordNames` for one record. -/
def updateOneRecordName (c : RecordSymbol) : RecordSymbol :=
  if c.baseRecords.length > 0 then { c with proto := appendBases c.proto c.baseRecords }
  else c

/-- `Indexer::updateRecordNames`: for every record with at least one base
record, extend its proto by the rendered inheritance list. -/
def updateRecordNames (idx : Index) : Index :=
  { idx with records := Database.mapValues updateOneRecordName idx.records }

/-- Modelled from the spec: `hdoc::utils::replaceAll` (support/StringUtils is
not among the sources).  Spec §4.6 defines the substitution as replacing all
occurrences of the pattern; this is the usual left-to-right, non-overlapping
replacement that continues scanning after the replacement text.  An empty
pattern replaces nothing.  The `skip` counter holds the number of matched
pattern characters still to be consumed after the replacement text was
emitted, which keeps the recursion structural in the string. -/
def replaceAllAux (pat repl : Str) : Nat → Str → Str
  | _, [] => []
  | 0, c :: cs =>
    if pat ≠ [] ∧ startsWithL (c :: cs) pat = true then
      repl ++ replaceAllAux pat repl (pat.length - 1) cs
    else
      c :: replaceAllAux pat repl 0 cs
  | Nat.succ k, _ :: cs => replaceAllAux pat repl k cs

/-- Replace every occurrence of `pat` in `s` by `repl`, left to right. -/
def replaceAllL (pat repl s : Str) : Str := replaceAllAux pat repl 0 s

/-- The `fixTypeParam` lambda of `Indexer::updateMemberFunctions`: for
`i = 0, 1, ...` below the number of template parameters, replace every
occurrence of `"type-parameter-0-" + to_string(i)` by the i-th template
parameter's name. -/
def fixTypeParam (templateParams : List TemplateParam) (s : Str) : Str :=
  templateParams.enum.foldl
    (fun acc ip => replaceAllL (("type-parameter-0-" ++ toString ip.1).data) ip.2.name acc)
    s

/-- The loop body of `Indexer::updateMemberFunctions` for one method `f` of a
record with the given template parameters: split the proto at
`postTemplate` and `nameStart` (`substr` becomes `take`/`drop`; the theorems
assume `postTemplate ≤ nameStart ≤ proto.length`, where the two agree),
substitute each part and the name, and if the recomposed proto changed,
store it together with the name and the recomputed offsets; finally
substitute every parameter's type name and default value. -/
def updateMemberFn (templateParams : List TemplateParam) (f : FunctionSymbol) :
    FunctionSymbol :=
  let templatePart := f.proto.take f.postTemplate
  let preNamePart := (f.proto.drop f.postTemplate).take (f.nameStart - f.postTemplate)
  let restPart := f.proto.drop f.nameStart
  let name := fixTypeParam templateParams f.name
  let templatePart' := fixTypeParam templateParams templatePart
  let preNamePart' := fixTypeParam templateParams preNamePart
  let restPart' := fixTypeParam templateParams restPart
  let newProto := templatePart' ++ preNamePart' ++ restPart'
  let f' :=
    if newProto = f.proto then f
    else
      { f with proto := newProto, name := name,
               postTemplate := templatePart'.length,
               nameStart := templatePart'.length + preNamePart'.length }
  { f' with params := f'.params.map (fun a =>
      { a with type := { a.type with name := fixTypeParam templateParams a.type.name },
               defaultValue := fixTypeParam templateParams a.defaultValue }) }

/-- The inner loop of `Indexer::updateMemberFunctions` for one record: for
every entry of its `methodIDs`, if the functions database contains that ID,
rewrite the stored function with `updateMemberFn` for the record's template
parameters (a missing ID is skipped by the `continue`). -/
def updateMethodsOfRecord (c : RecordSymbol) (db : Database FunctionSymbol) :
    Database FunctionSymbol :=
  c.methodIDs.foldl
    (fun db mid =>
      if db.contains mid = true then db.mapAt mid (updateMemberFn c.templateParams)
      else db)
    db

/-- `Indexer::updateMemberFunctions`: run `updateMethodsOfRecord` over every
record, threading the functions database through. -/
def updateMemberFunctions (idx : Index) : Index :=
  let db := idx.records.entries.foldl (fun db p => updateMethodsOfRecord p.2 db) idx.functions
  { idx with functions := db }

/-- The IDs `Indexer::pruneMethods` collects in `toBePruned`: record-member
functions whose `parentNamespaceID` (borrowed as a parent-record pointer) is
not a record present in the index. -/
def toBePruned (idx : Index) : List SymbolID :=
  (idx.functions.entries.filter
    (fun p => p.2.isRecordMember && !(idx.records.contains p.2.parentNamespaceID))).map
    (fun p => p.1)

/-- `Indexer::pruneMethods`: collect the IDs of the functions that are record
members whose parent record is absent, then erase exactly those entries. -/
def pruneMethods (idx : Index) : Index :=
  { idx with functions :=
      { entries := idx.functions.entries.filter (fun p => !((toBePruned idx).contains p.1)),
        numMatches := idx.functions.numMatches } }

/-- The `haveId` lambda of `Indexer::pruneTypeRefs`: does the ID resolve to a
record, enum, or alias in the index? -/
def haveId (idx : Index) (id : SymbolID) : Bool :=
  idx.records.contains id || idx.enums.contains id || idx.aliases.contains id

/-- One `if (haveId(t.id) == false) t.id = SymbolID();` step of
`Indexer::pruneTypeRefs`: null the ID when it does not resolve, keep the
name either way. -/
def pruneRef (idx : Index) (t : TypeRef) : TypeRef :=
  if haveId idx t.id = false then { t with id := nullID } else t

/-- The return-type and parameter steps of `Indexer::pruneTypeRefs` for one
function. -/
def pruneFnRefs (idx : Index) (f : FunctionSymbol) : FunctionSymbol :=
  { f with
    returnType := pruneRef idx f.returnType,
    params := f.params.map (fun a => { a with type := pruneRef idx a.type }) }

/-- The member-variable loop of `Indexer::pruneTypeRefs` for one record. -/
def pruneRecRefs (idx : Index) (c : RecordSymbol) : RecordSymbol :=
  { c with vars := c.vars.map (fun v => { v with type := pruneRef idx v.type }) }

/-- The alias-target step of `Indexer::pruneTypeRefs` for one alias. -/
def pruneAliasRefs (idx : Index) (a : AliasSymbol) : AliasSymbol :=
  { a with target := pruneRef idx a.target }

/-- `Indexer::pruneTypeRefs`: apply `pruneRef` to every function return type
and parameter type, every record member variable type, and every alias
target.  The C++ queries `haveId` against the live index while mutating it,
but the loops never change any database's key set (only TypeRef ids inside
stored values), so `contains` — and hence `haveId` — is unaffected and
querying the initial index is equivalent. -/
def pruneTypeRefs (idx : Index) : Index :=
  { idx with
    functions := Database.mapValues (pruneFnRefs idx) idx.functions
    records := Database.mapValues (pruneRecRefs idx) idx.records
    aliases := Database.mapValues (pruneAliasRefs idx) idx.aliases }

/-- Modelled from the spec: the driver that sequences the post-passes is not
among the sources (only the passes themselves are); spec §4.10 fixes the
order `pruneMethods` → `resolveNamespaces` → `updateRecordNames` →
`updateMemberFunctions` → `pruneTypeRefs` → stats, and `printStats` does not
change the index. -/
def postPasses (idx : Index) : Index :=
  pruneTypeRefs (updateMemberFunctions (updateRecordNames (resolveNamespaces (pruneMethods idx))))

def bumpFunctions (idx : Index) : Index := { idx with functions := idx.functions.bumpMatches }

def bumpRecords (idx : Index) : Index := { idx with records := idx.records.bumpMatches }

def bumpEnums (idx : Index) : Index := { idx with enums := idx.enums.bumpMatches }

def bumpNamespaces (idx : Index) : Index := { idx with namespaces := idx.namespaces.bumpMatches }

def bumpAliases (idx : Index) : Index := { idx with aliases := idx.aliases.bumpMatches }

/-- `std::regex_replace(name, std::regex("<.*>"), "")` as applied to
constructor/destructor names: the greedy `.*` makes a single match from the
first `<` to the last `>` (when the latter comes after the former), and no
further match can remain. -/
def stripAngles (s : Str) : Str :=
  match s.findIdx? (fun ch => ch == '<') with
  | Option.none => s
  | Option.some i =>
    match s.reverse.findIdx? (fun ch => ch == '>') with
    | Option.none => s
    | Option.some rj =>
      let j := s.length - 1 - rj
      if i < j then s.take i ++ s.drop (j + 1) else s

/-- Candidate data for one `clang::FunctionDecl` reaching
`FunctionMatcher::run`: the flags the callback reads off the node, the
results of the out-of-repository helpers (`isInIgnoreList`,
`isInAnonymousNamespace`, `buildID`, `fillNamespace`), and — modelled from
the spec, since signature generation is not among the sources — the
rendered `proto` with its `postTemplate`/`nameStart` offsets produced by
`getFunctionSignature`.  The presentation-only qualifier booleans the
callback also copies are omitted, as in `FunctionSymbol`. -/
structure FuncCand where
  isDeletedAsWritten : Bool := false
  isDeductionGuide : Bool := false
  inIgnoreList : Bool := false
  validSourceRange : Bool := true
  isStatic : Bool := false
  isCXXClassMember : Bool := false
  inAnonymousNamespace : Bool := false
  access : Access := Access.nospec
  id : SymbolID := nullID
  name : Str := []
  isCtorOrDtor : Bool := false
  returnTypeName : Str := []
  returnTypeId : SymbolID := nullID
  params : List FunctionParam := []
  proto : Str := []
  postTemplate : Nat := 0
  nameStart : Nat := 0
  parentNamespaceID : SymbolID := nullID
deriving DecidableEq, Repr

/-- The `FunctionSymbol` `FunctionMatcher::run` builds from a candidate that
passed every filter: constructors/destructors keep the default (void-free)
return type and have angle-bracketed specialization arguments stripped from
their name; `fillOutSymbol`/`fillNamespace` (modelled from the spec: they
populate the base `Symbol` fields from the declaration) supply ID, name,
access and the parent namespace ID. -/
def funcSymbolOf (c : FuncCand) : FunctionSymbol :=
  { ID := c.id,
    name := if c.isCtorOrDtor = true then stripAngles c.name else c.name,
    proto := c.proto,
    postTemplate := c.postTemplate,
    nameStart := c.nameStart,
    returnType :=
      if c.isCtorOrDtor = true then {} else { name := c.returnTypeName, id := c.returnTypeId },
    params := c.params,
    access := c.access,
    isRecordMember := c.isCXXClassMember,
    parentNamespaceID := c.parentNamespaceID }

/-- `FunctionMatcher::run`: deleted functions and deduction guides return
before the counter; then `numMatches++`; then the ignore/validity/static/
anonymous-namespace/private filter; then deduplication by SymbolID; finally
the symbol is built and stored. -/
def functionMatcherRun (cfg : Config) (idx : Index) (c : FuncCand) : Index :=
  if c.isDeletedAsWritten = true then idx
  else if c.isDeductionGuide = true then idx
  else
    let idx := bumpFunctions idx
    if c.inIgnoreList = true ∨ c.validSourceRange = false ∨
       (c.isStatic = true ∧ c.isCXXClassMember = false) ∨ c.inAnonymousNamespace = true ∨
       (c.access = Access.priv ∧ cfg.ignorePrivateMembers = true) then idx
    else if idx.functions.contains c.id = true then idx
    else { idx with functions := idx.functions.insertNew c.id (funcSymbolOf c) }

/-- The data `RecordMatcher::run` reads off one method (or member function
template, or member alias) declaration of a record. -/
structure MethodDesc where
  isImplicit : Bool := false
  inIgnoreList : Bool := false
  inAnonymousNamespace : Bool := false
  access : Access := Access.nospec
  id : SymbolID := nullID
deriving DecidableEq, Repr

/-- The data `RecordMatcher::run` reads off one static-member `VarDecl`. -/
structure VarDesc where
  access : Access := Access.nospec
  name : Str := []
  hasInit : Bool := false
  initText : Str := []
  isAnonTyped : Bool := false
  typeName : Str := []
  typeId : SymbolID := nullID
deriving DecidableEq, Repr

/-- One element of `res->decls()` as classified by the two decls loops of
`RecordMatcher::run`: a member function template, a member alias
(`UsingShadowDecl`/`UsingDecl`/`TypeAliasDecl`), a static-member `VarDecl`,
or anything else (skipped by both loops). -/
inductive DeclDesc where
  | ftd (m : MethodDesc)
  | aliasD (m : MethodDesc)
  | varD (v : VarDesc)
  | otherD
deriving DecidableEq, Repr

/-- The data `RecordMatcher::run` reads off one field of `res->fields()`.
`isAnonTyped` bundles `isAnonymousStructOrUnion() || isAnonRecordMemberVar`
(the rendered type contains `"anonymous "`). -/
structure FieldDesc where
  access : Access := Access.nospec
  name : Str := []
  hasInClassInit : Bool := false
  initText : Str := []
  isAnonTyped : Bool := false
  typeName : Str := []
  typeId : SymbolID := nullID
deriving DecidableEq, Repr

/-- The data `RecordMatcher::run` reads off one base specifier.
`writtenAccess` is the access specifier as written in the source
(`AS_none`/`nospec` when none was written). -/
structure BaseCand where
  hasRecordDecl : Bool := true
  inStdNamespace : Bool := false
  writtenAccess : Access := Access.nospec
  baseName : Str := []
  baseId : SymbolID := nullID
deriving DecidableEq, Repr

/-- Models the front-end's `clang::CXXBaseSpecifier::getAccessSpecifier`,
the call at the `c.baseRecords.push_back` sites: it returns the written
access specifier when one was written, and otherwise the language default —
`private` for a `class`, `public` for a `struct` or `union`.  (The
`getAccessSpecifierAsWritten` variant, which can return `AS_none`, is not
the one the extractor calls.) -/
def baseAccessSpecifier (written : Access) (derivedKind : Str) : Access :=
  if written = Access.nospec then
    (if derivedKind = "class".data then Access.priv else Access.pub)
  else written

/-- Candidate data for one `clang::CXXRecordDecl` reaching
`RecordMatcher::run`.  `specNameSuffix` carries the `<...>` suffix that
`templateArgsToStrings` renders for a class-template specialization (its
input is front-end template-argument data that is not embedded). -/
structure RecCand where
  isCompleteDefinition : Bool := true
  validSourceRange : Bool := true
  inIgnoreList : Bool := false
  inAnonymousNamespace : Bool := false
  nameAsWritten : Str := []
  typedefNameForAnon : Str := []
  isSpecializationWithoutTypeAsWritten : Bool := false
  id : SymbolID := nullID
  access : Access := Access.nospec
  parentRecordName : Option Str := Option.none
  methods : List MethodDesc := []
  decls : List DeclDesc := []
  isThisDeclarationADefinition : Bool := true
  bases : List BaseCand := []
  kindName : Str := []
  templateParams : List TemplateParam := []
  isSpecialization : Bool := false
  specNameSuffix : Str := []
  fields : List FieldDesc := []
  parentNamespaceID : SymbolID := nullID
deriving DecidableEq, Repr

/-- The shared `if (...) continue;` filter of the method, member-template
and member-alias loops of `RecordMatcher::run`. -/
def methodKept (cfg : Config) (m : MethodDesc) : Bool :=
  if m.isImplicit = true ∨ m.inIgnoreList = true ∨ m.inAnonymousNamespace = true ∨
     (m.access = Access.priv ∧ cfg.ignorePrivateMembers = true) then false
  else true

/-- The sentinel type name stored for anonymous struct/union members. -/
def anonTypeName : Str := "anonymous struct/union".data

/-- Modelled from the spec: `getRecordProto` is not among the sources; §4.4
renders a record proto as `"<template prelude> <type> <name>"` (for example
`"template <...> class Foo"`), with inheritance appended only later by
`updateRecordNames`. -/
def getRecordProto (r : RecordSymbol) : Str :=
  (if r.templateParams.length > 0 then
     "template <".data ++ joinStr ", ".data (r.templateParams.map (fun t => t.name)) ++
       "> ".data
   else []) ++ r.type ++ " ".data ++ r.name

/-- The `RecordSymbol` `RecordMatcher::run` builds from a candidate that
passed every filter: typedef-name recovery for unnamed records, the
`Parent::` name part for nested records, the `<...>` name suffix for
specializations, method/alias/variable collection behind the per-member
filters, base-record collection, and the proto. -/
def buildRecordSymbol (cfg : Config) (c : RecCand) : RecordSymbol :=
  let cachedName := if c.nameAsWritten = [] then c.typedefNameForAnon else []
  let name1 := if c.nameAsWritten = [] then cachedName else c.nameAsWritten
  let name2 :=
    match c.parentRecordName with
    | Option.some p => p ++ "::".data ++ name1
    | Option.none => name1
  let name3 := if c.isSpecialization = true then name2 ++ c.specNameSuffix else name2
  let methodIDs1 := (c.methods.filter (methodKept cfg)).map (fun m => m.id)
  let methodIDs2 := c.decls.filterMap (fun d =>
    match d with
    | DeclDesc.ftd m => if methodKept cfg m = true then Option.some m.id else Option.none
    | _ => Option.none)
  let aliasIDs := c.decls.filterMap (fun d =>
    match d with
    | DeclDesc.aliasD m => if methodKept cfg m = true then Option.some m.id else Option.none
    | _ => Option.none)
  let bases :=
    if c.isThisDeclarationADefinition = true then
      c.bases.filterMap (fun b =>
        if b.hasRecordDecl = false then Option.none
        else Option.some
          { id := b.baseId,
            access := baseAccessSpecifier b.writtenAccess c.kindName,
            name :=
              if b.inStdNamespace = true then "std::".data ++ b.baseName else b.baseName })
    else []
  let vars1 := c.fields.filterMap (fun fd =>
    if fd.access = Access.priv ∧ cfg.ignorePrivateMembers = true then Option.none
    else Option.some
      { isStatic := false, name := fd.name,
        defaultValue := if fd.hasInClassInit = true then fd.initText else [],
        access := fd.access,
        type :=
          if fd.isAnonTyped = true then { name := anonTypeName, id := nullID }
          else { name := fd.typeName, id := fd.typeId } })
  let vars2 := c.decls.filterMap (fun d =>
    match d with
    | DeclDesc.varD vd =>
      if vd.access = Access.priv ∧ cfg.ignorePrivateMembers = true then Option.none
      else Option.some
        { isStatic := true, name := vd.name,
          defaultValue := if vd.hasInit = true then vd.initText else [],
          access := vd.access,
          type :=
            if vd.isAnonTyped = true then { name := anonTypeName, id := nullID }
            else { name := vd.typeName, id := vd.typeId } }
    | _ => Option.none)
  let c0 : RecordSymbol :=
    { ID := c.id, name := name3, proto := [], type := c.kindName, access := c.access,
      parentNamespaceID := c.parentNamespaceID, templateParams := c.templateParams,
      baseRecords := bases, methodIDs := methodIDs1 ++ methodIDs2, aliasIDs := aliasIDs,
      vars := vars1 ++ vars2 }
  { c0 with proto := getRecordProto c0 }

/-- `RecordMatcher::run`: `numMatches++` happens first; then the
ignore/validity/anonymous-namespace filter, the unnamed-record recovery, the
specialization-without-written-type drop, and deduplication; note that the
record's own access specifier is never consulted. -/
def recordMatcherRun (cfg : Config) (idx : Index) (c : RecCand) : Index :=
  let idx := bumpRecords idx
  if c.isCompleteDefinition = false ∨ c.validSourceRange = false ∨
     c.inIgnoreList = true ∨ c.inAnonymousNamespace = true then idx
  else
    let cachedName := if c.nameAsWritten = [] then c.typedefNameForAnon else []
    if c.nameAsWritten = [] ∧ cachedName = [] then idx
    else if c.isSpecializationWithoutTypeAsWritten = true then idx
    else if idx.records.contains c.id = true then idx
    else { idx with records := idx.records.insertNew c.id (buildRecordSymbol cfg c) }

/-- Candidate data for one `clang::EnumDecl` reaching `EnumMatcher::run`
(the enumerator list is presentation-only and omitted). -/
structure EnumCand where
  nameAsString : Str := []
  inIgnoreList : Bool := false
  inAnonymousNamespace : Bool := false
  id : SymbolID := nullID
  access : Access := Access.nospec
  parentRecordName : Option Str := Option.none
  isScoped : Bool := false
  isScopedUsingClassTag : Bool := false
  parentNamespaceID : SymbolID := nullID
deriving DecidableEq, Repr

/-- `EnumMatcher::run`: `numMatches++` first; anonymous enums, ignored
declarations and anonymous namespaces are dropped; deduplication; note that
neither the source range nor the access specifier nor
`ignorePrivateMembers` is consulted.  (The config enters only through the
precomputed `inIgnoreList`.) -/
def enumMatcherRun (idx : Index) (c : EnumCand) : Index :=
  let idx := bumpEnums idx
  if c.nameAsString = [] ∨ c.inIgnoreList = true ∨ c.inAnonymousNamespace = true then idx
  else if idx.enums.contains c.id = true then idx
  else
    let name :=
      match c.parentRecordName with
      | Option.some p => p ++ "::".data ++ c.nameAsString
      | Option.none => c.nameAsString
    let etype :=
      if c.isScoped = true then
        (if c.isScopedUsingClassTag = true then "enum class".data else "enum struct".data)
      else "enum".data
    let e : EnumSymbol :=
      { ID := c.id, name := name, type := etype, access := c.access,
        parentNamespaceID := c.parentNamespaceID }
    { idx with enums := idx.enums.insertNew c.id e }

/-- Candidate data for one `clang::NamespaceDecl` reaching
`NamespaceMatcher::run`. -/
structure NsCand where
  nameAsString : Str := []
  inIgnoreList : Bool := false
  inAnonymousNamespace : Bool := false
  id : SymbolID := nullID
  parentNamespaceID : SymbolID := nullID
deriving DecidableEq, Repr

/-- `NamespaceMatcher::run`: `numMatches++` first; unnamed, ignored or
anonymous-namespace-enclosed namespaces are dropped; deduplication; the
stored symbol has all four child lists empty (they are filled only by
`resolveNamespaces`). -/
def namespaceMatcherRun (idx : Index) (c : NsCand) : Index :=
  let idx := bumpNamespaces idx
  if c.nameAsString = [] ∨ c.inIgnoreList = true ∨ c.inAnonymousNamespace = true then idx
  else if idx.namespaces.contains c.id = true then idx
  else
    let n : NamespaceSymbol :=
      { ID := c.id, name := c.nameAsString, parentNamespaceID := c.parentNamespaceID }
    { idx with namespaces := idx.namespaces.insertNew c.id n }

/-- One shadow declaration of a `UsingDecl`, as read by the shadows loop of
`UsingMatcher::run`: the `buildID` and qualified name of its underlying
declaration. -/
structure ShadowDesc where
  underlyingId : SymbolID := nullID
  underlyingName : Str := []
deriving DecidableEq, Repr

/-- The syntactic kind of a candidate reaching `UsingMatcher::run`, together
with the target data each branch reads: a `UsingDecl` with its shadows, a
`UsingShadowDecl` with its target declaration's ID and qualified name, a
`TypeAliasDecl` with its printed underlying type and the `getTypeSymbolID`
of that type, or any other `NamedDecl` (rejected). -/
inductive AliasKind where
  | usingD (shadows : List ShadowDesc)
  | usingShadowD (targetId : SymbolID) (targetName : Str)
  | typeAliasD (underlyingName : Str) (underlyingId : SymbolID)
  | otherKind
deriving DecidableEq, Repr

/-- Candidate data for one `clang::NamedDecl` reaching `UsingMatcher::run`. -/
structure AliasCand where
  kind : AliasKind := AliasKind.otherKind
  inFunctionOrMethod : Bool := false
  inIgnoreList : Bool := false
  validSourceRange : Bool := true
  access : Access := Access.nospec
  isCXXClassMember : Bool := false
  id : SymbolID := nullID
  name : Str := []
  parentNamespaceID : SymbolID := nullID
deriving DecidableEq, Repr

/-- The target the branches of `UsingMatcher::run` store: for a `UsingDecl`
the shadows loop overwrites `a.target` on every iteration, so the last
shadow wins; an empty shadow list leaves the default (empty name, null
ID). -/
def aliasTarget (kind : AliasKind) : TypeRef :=
  match kind with
  | AliasKind.usingD shadows =>
    shadows.foldl (fun _ s => { name := s.underlyingName, id := s.underlyingId }) {}
  | AliasKind.usingShadowD tid tname => { name := tname, id := tid }
  | AliasKind.typeAliasD uname uid => { name := uname, id := uid }
  | AliasKind.otherKind => {}

/-- `UsingMatcher::run`: only the three alias kinds get past the first test;
aliases in function or method scope return before the counter; then
`numMatches++`, the ignore/validity/private filter, deduplication, and the
symbol is built and stored.  (`fillOutSymbol`, modelled from the spec,
populates `access` from the declaration; the explicit
`if (isRecordMember) a.access = getAccess()` then re-assigns that same
value.) -/
def usingMatcherRun (cfg : Config) (idx : Index) (c : AliasCand) : Index :=
  match c.kind with
  | AliasKind.otherKind => idx
  | _ =>
    if c.inFunctionOrMethod = true then idx
    else
      let idx := bumpAliases idx
      if c.inIgnoreList = true ∨ c.validSourceRange = false ∨
         (c.access = Access.priv ∧ cfg.ignorePrivateMembers = true) then idx
      else if idx.aliases.contains c.id = true then idx
      else
        let a : AliasSymbol :=
          { ID := c.id, name := c.name, access := c.access,
            isRecordMember := c.isCXXClassMember, parentNamespaceID := c.parentNamespaceID,
            target := aliasTarget c.kind }
        { idx with aliases := idx.aliases.insertNew c.id a }

/-- One matcher callback across the parallel traversal of all translation
units.  The post-passes run strictly after all of them; the model threads
the callbacks sequentially through the shared index, which realizes the
"first writer wins by SymbolID" deduplication contract. -/
inductive Event where
  | funcEv (c : FuncCand)
  | recEv (c : RecCand)
  | enumEv (c : EnumCand)
  | nsEv (c : NsCand)
  | aliasEv (c : AliasCand)
deriving DecidableEq, Repr

/-- Dispatch one callback. -/
def stepEvent (cfg : Config) (idx : Index) (e : Event) : Index :=
  match e with
  | Event.funcEv c => functionMatcherRun cfg idx c
  | Event.recEv c => recordMatcherRun cfg idx c
  | Event.enumEv c => enumMatcherRun idx c
  | Event.nsEv c => namespaceMatcherRun idx c
  | Event.aliasEv c => usingMatcherRun cfg idx c

/-- Run every matcher callback in order on a starting index. -/
def processEvents (cfg : Config) (events : List Event) (idx : Index) : Index :=
  events.foldl (stepEvent cfg) idx

/-- The whole indexing run: all matcher callbacks from the empty index, then
the post-passes in their fixed order. -/
def runPipeline (cfg : Config) (events : List Event) : Index :=
  postPasses (processEvents cfg events emptyIndex)

/-- Configuration with no ignored paths but an ignored namespace substring. -/
def cfgNoPaths : Config :=
  { ignorePaths := [], ignoreNamespaces := ["detail".data], ignorePrivateMembers := false }

/-- A declaration nested in `ns::detail` (innermost context listed first). -/
def enclosingDetail : List NSEntry :=
  [NSEntry.named "detail".data, NSEntry.named "ns".data]

/-- A deleted-as-written function candidate (everything else default). -/
def deletedFnCand : FuncCand := { isDeletedAsWritten := true }

/-- A candidate function that passes every filter (all fields default). -/
def plainFnCand : FuncCand := {}

/-- A `UsingDecl` candidate with two shadows, everything passing. -/
def twoShadowCand : AliasCand :=
  { kind := AliasKind.usingD [{ underlyingId := 5, underlyingName := "ns::A".data },
                              { underlyingId := 7, underlyingName := "ns::B".data }],
    id := 3, name := "myAlias".data }

/-- A record symbol with one public base, as stored before the
`updateRecordNames` pass. -/
def recWithBase : RecordSymbol :=
  { ID := 4, name := "D".data, proto := "struct D".data, type := "struct".data,
    baseRecords := [{ id := 7, access := Access.pub, name := "B".data }] }

/-- An index holding just `recWithBase`. -/
def idxWithBase : Index := { records := { entries := [(4, recWithBase)] } }

/-- A `struct D : B` candidate: one base whose access specifier was not
written in the source. -/
def structDCand : RecCand :=
  { nameAsWritten := "D".data, kindName := "struct".data, id := 4,
    bases := [{ writtenAccess := Access.nospec, baseName := "B".data, baseId := 7 }] }

/-- Spec-side description of what `pruneTypeRefs` does to one `TypeRef`:
the name is kept; the id is kept when it resolves to a record, enum or
alias, and nulled when it does not. -/
def prunedRefRel (idx : Index) (t t' : TypeRef) : Prop :=
  t'.name = t.name ∧
  (haveId idx t.id = true → t'.id = t.id) ∧
  (haveId idx t.id = false → t'.id = nullID)

/-- Spec-side frame for one function parameter under `pruneTypeRefs`. -/
def prunedParamRel (idx : Index) (a a' : FunctionParam) : Prop :=
  a'.name = a.name ∧ a'.defaultValue = a.defaultValue ∧ prunedRefRel idx a.type a'.type

/-- Spec-side frame for one function under `pruneTypeRefs`: every field
unchanged except the return type and parameter types, which follow
`prunedRefRel`. -/
def prunedFnRel (idx : Index) (f f' : FunctionSymbol) : Prop :=
  f'.ID = f.ID ∧ f'.name = f.name ∧ f'.proto = f.proto ∧
  f'.postTemplate = f.postTemplate ∧ f'.nameStart = f.nameStart ∧
  f'.access = f.access ∧ f'.isRecordMember = f.isRecordMember ∧
  f'.parentNamespaceID = f.parentNamespaceID ∧
  prunedRefRel idx f.returnType f'.returnType ∧
  List.Forall₂ (prunedParamRel idx) f.params f'.params

/-- Spec-side frame for one member variable under `pruneTypeRefs`. -/
def prunedVarRel (idx : Index) (v v' : MemberVariable) : Prop :=
  v'.isStatic = v.isStatic ∧ v'.name = v.name ∧ v'.defaultValue = v.defaultValue ∧
  v'.access = v.access ∧ prunedRefRel idx v.type v'.type

/-- Spec-side frame for one record under `pruneTypeRefs`: every field
unchanged except the member-variable types. -/
def prunedRecRel (idx : Index) (c c' : RecordSymbol) : Prop :=
  c'.ID = c.ID ∧ c'.name = c.name ∧ c'.proto = c.proto ∧ c'.type = c.type ∧
  c'.access = c.access ∧ c'.parentNamespaceID = c.parentNamespaceID ∧
  c'.templateParams = c.templateParams ∧ c'.baseRecords = c.baseRecords ∧
  c'.methodIDs = c.methodIDs ∧ c'.aliasIDs = c.aliasIDs ∧
  List.Forall₂ (prunedVarRel idx) c.vars c'.vars

/-- Spec-side frame for one alias under `pruneTypeRefs`: every field
unchanged except the target's id. -/
def prunedAliasRel (idx : Index) (a a' : AliasSymbol) : Prop :=
  a'.ID = a.ID ∧ a'.name = a.name ∧ a'.access = a.access ∧
  a'.isRecordMember = a.isRecordMember ∧ a'.parentNamespaceID = a.parentNamespaceID ∧
  prunedRefRel idx a.target a'.target

/-- A `TypeRef.id` is either null or resolves in the index (spec §3,
TypeRef invariant). -/
def refResolvedOrNull (idx : Index) (t : TypeRef) : Prop :=
  t.id = nullID ∨ haveId idx t.id = true

/-- A member function whose name ends one character short of the
substitution pattern occurrence that starts the rest of its proto
(`postTemplate = nameStart = 0`); the pre-pass offset invariants hold. -/
def straddleFn : FunctionSymbol :=
  { ID := 5, name := "oper ty".data, proto := "oper type-parameter-0-0".data,
    postTemplate := 0, nameStart := 0 }

/-- A record with one template parameter named `AB` whose method list holds
`straddleFn`. -/
def straddleRec : RecordSymbol :=
  { ID := 6, templateParams := [{ name := "AB".data }], methodIDs := [5] }

/-- The index holding `straddleRec` and `straddleFn`. -/
def idxStraddle : Index :=
  { functions := { entries := [(5, straddleFn)] },
    records := { entries := [(6, straddleRec)] } }

/-- A template parameter list with one parameter named `T`. -/
def tWitnessTps : List TemplateParam := [{ name := "T".data }]

/-- A well-behaved member function whose proto contains the canonical
placeholder only after the name. -/
def tWitnessFn : FunctionSymbol :=
  { ID := 8, name := "f".data, proto := "void f(type-parameter-0-0)".data,
    postTemplate := 0, nameStart := 5 }

/-- A function whose return type points at an ID (9) absent from the
index. -/
def fnWithDeadRef : FunctionSymbol :=
  { ID := 1, name := "f".data, returnType := { name := "T".data, id := 9 } }

/-- An index holding just `fnWithDeadRef`. -/
def idxWithDeadRef : Index := { functions := { entries := [(1, fnWithDeadRef)] } }

/-- The function fields the post-passes must not disturb, related across two
states of the functions database: every surviving entry descends from an
entry of the first state with the same key, ID, access, record-membership
and parent pointer. -/
def fnFieldsPreserved (db0 db : Database FunctionSymbol) : Prop :=
  ∀ (k : SymbolID) (f' : FunctionSymbol), (k, f') ∈ db.entries →
    ∃ f, (k, f) ∈ db0.entries ∧ f'.ID = f.ID ∧ f'.access = f.access ∧
      f'.isRecordMember = f.isRecordMember ∧ f'.parentNamespaceID = f.parentNamespaceID

/-- A member function of record 21. -/
def fC4 : FunctionSymbol := { ID := 22, isRecordMember := true, parentNamespaceID := 21 }

/-- A record listing `fC4` as a method. -/
def rC4 : RecordSymbol := { ID := 21, methodIDs := [22] }

/-- An index pairing `rC4` with its method `fC4`. -/
def idxC4 : Index :=
  { functions := { entries := [(22, fC4)] }, records := { entries := [(21, rC4)] } }

/-- A record whose `methodIDs` names a function (32) that was never
indexed. -/
def danglingRec : RecordSymbol := { ID := 31, methodIDs := [32] }

/-- An index holding just `danglingRec`. -/
def idxDangling : Index := { records := { entries := [(31, danglingRec)] } }

/-- The two directions of the namespace-children claim for one child list:
every entry of the database with the matching parent pointer appears in the
list, no entry with a different parent appears, and every list element is
the ID of an entry with the matching parent. -/
def nsChildrenOk {T : Type} (entries : List (SymbolID × T)) (idOf parentOf : T → SymbolID)
    (nsID : SymbolID) (lst : List SymbolID) : Prop :=
  (∀ (k : SymbolID) (v : T), (k, v) ∈ entries →
    (parentOf v = nsID → idOf v ∈ lst) ∧ (parentOf v ≠ nsID → idOf v ∉ lst)) ∧
  (∀ x ∈ lst, ∃ (k : SymbolID) (v : T), (k, v) ∈ entries ∧ idOf v = x ∧ parentOf v = nsID)

/-- Every symbol ID stored in the four child-bearing databases, in one
list; its `Nodup` states that IDs are globally distinct across records,
enums, namespaces and aliases (true of the content-addressed SymbolID
hashes). -/
def allSymbolIDs (idx : Index) : List SymbolID :=
  idx.records.entries.map (fun p => p.2.ID) ++ idx.enums.entries.map (fun p => p.2.ID) ++
    idx.namespaces.entries.map (fun p => p.2.ID) ++ idx.aliases.entries.map (fun p => p.2.ID)

/-- A namespace with ID 1 at translation-unit scope. -/
def nsC8 : NamespaceSymbol := { ID := 1, name := "ns".data, parentNamespaceID := 0 }

/-- A record inside namespace 1. -/
def recC8 : RecordSymbol := { ID := 2, parentNamespaceID := 1 }

/-- An enum whose parent namespace (99) is not indexed. -/
def enumC8 : EnumSymbol := { ID := 3, parentNamespaceID := 99 }

/-- The index holding `nsC8`, `recC8` and `enumC8`. -/
def idxC8 : Index :=
  { records := { entries := [(2, recC8)] },
    enums := { entries := [(3, enumC8)] },
    namespaces := { entries := [(1, nsC8)] } }

/-- Consistency of one member descriptor with the ground-truth privateness
predicate `priv`: if the symbol is private, the descriptor's access says
so.  (In the front-end, `getAccess()` of a private declaration is
`AS_private` wherever it is read.) -/
def descOK (priv : SymbolID → Bool) (m : MethodDesc) : Prop :=
  priv m.id = true → m.access = Access.priv

/-- Consistency of one matcher callback's candidate data with `priv`: every
access flag the callback reads agrees with the ground truth. -/
def EventOK (priv : SymbolID → Bool) : Event → Prop
  | Event.funcEv c => priv c.id = true → c.access = Access.priv
  | Event.recEv c =>
    (∀ m ∈ c.methods, descOK priv m) ∧
    (∀ d ∈ c.decls,
      match d with
      | DeclDesc.ftd m => descOK priv m
      | DeclDesc.aliasD m => descOK priv m
      | _ => True)
  | Event.enumEv _ => True
  | Event.nsEv _ => True
  | Event.aliasEv c => priv c.id = true → c.access = Access.priv

/-- The private-filter invariant of the index: no private symbol is stored
as a function or alias entry, no record lists a private method ID, alias ID
or member variable.  (Record and enum entries themselves are deliberately
not covered: the extractors never consult their access.) -/
def PrivInv (priv : SymbolID → Bool) (idx : Index) : Prop :=
  (∀ (k : SymbolID) (f : FunctionSymbol), (k, f) ∈ idx.functions.entries →
    priv k = false ∧ f.access ≠ Access.priv) ∧
  (∀ (k : SymbolID) (a : AliasSymbol), (k, a) ∈ idx.aliases.entries →
    priv k = false ∧ a.access ≠ Access.priv) ∧
  (∀ (k : SymbolID) (r : RecordSymbol), (k, r) ∈ idx.records.entries →
    (∀ mid ∈ r.methodIDs, priv mid = false) ∧
    (∀ aid ∈ r.aliasIDs, priv aid = false) ∧
    (∀ v ∈ r.vars, v.access ≠ Access.priv))

/-- A configuration with the private filter enabled. -/
def cfgPrivate : Config := { ignorePrivateMembers := true }

/-- A private nested record (`class Outer { class Inner {}; };`): the
record matcher reads its flags but never its access. -/
def privRecCand : RecCand :=
  { nameAsWritten := "Inner".data, id := 42, access := Access.priv,
    kindName := "class".data, parentRecordName := Option.some "Outer".data }

/-- Ground truth for the counterexample: symbol 42 is private. -/
def privTrue42 : SymbolID → Bool := fun i => i == 42

/-- A public function candidate for the witness. -/
def fnC2 : FuncCand := { id := 11, access := Access.pub }

/-- Ground truth for the witness: nothing is private. -/
def privNone : SymbolID → Bool := fun _ => false

/-- Claim C1: the claim states that a declaration inside a namespace whose
name contains an `ignoreNamespaces` substring is filtered out by
`shouldBeIgnored` regardless of whether `config.ignorePaths` is empty.  The
code contradicts this: with `ignorePaths = []` the matcher returns `false`
before the namespace check, so a declaration inside `ns::detail` with
`ignoreNamespaces = ["detail"]` is not filtered even though
`isEnclosingNamespaceInList` holds for it. -/
theorem shouldBeIgnored_skips_namespace_check_when_ignorePaths_empty :
    isEnclosingNamespaceInList enclosingDetail cfgNoPaths.ignoreNamespaces = true ∧
    shouldBeIgnored cfgNoPaths
      { expansionValid := true, hasFileEntry := true, relFilename := "src/a.hpp".data }
      enclosingDetail = false := by
  constructor
  · decide
  · decide

/-- Claim C3 counterexample: the claim states that `functions.numMatches` is
incremented for every candidate including deleted functions; but
`FunctionMatcher::run` returns on `isDeletedAsWritten()` before the counter,
so a deleted candidate leaves `numMatches` at 0. -/
theorem functionMatcher_deleted_candidate_not_counted :
    deletedFnCand.isDeletedAsWritten = true ∧
    (functionMatcherRun {} emptyIndex deletedFnCand).functions.numMatches = 0 := by
  constructor
  · rfl
  · rfl

/-- Claim C3 (amended): for every candidate function declaration that is
neither deleted-as-written nor a deduction guide, `functions.numMatches` is
incremented exactly once, before any drop decision (filter, invalid range,
static non-member, private, duplicate SymbolID) is taken; deleted functions
and deduction guides return before the counter and leave the index
unchanged. -/
theorem functionMatcher_counts_before_drops
    (cfg : Config) (idx : Index) (c : FuncCand) :
    (c.isDeletedAsWritten = false → c.isDeductionGuide = false →
      (functionMatcherRun cfg idx c).functions.numMatches =
        idx.functions.numMatches + 1) ∧
    (c.isDeletedAsWritten = true ∨ c.isDeductionGuide = true →
      functionMatcherRun cfg idx c = idx) := by
  constructor
  · intro hd hg
    simp only [functionMatcherRun, hd, hg, Bool.false_eq_true, ite_false]
    split
    · rfl
    · split
      · rfl
      · rfl
  · intro h
    rcases h with h | h <;> simp [functionMatcherRun, h]

/-- Claim C3 witness: the amended theorem at a concrete candidate. -/
theorem functionMatcher_counts_before_drops_witness :
    (functionMatcherRun {} emptyIndex plainFnCand).functions.numMatches =
      emptyIndex.functions.numMatches + 1 :=
  (functionMatcher_counts_before_drops {} emptyIndex plainFnCand).1 rfl rfl

/-- A fold that ignores its accumulator and overwrites it on every element
ends at the image of the last element. -/
theorem foldl_overwrite {α β : Type} (g : α → β) (init : β) (l : List α) (x : α)
    (h : l.getLast? = Option.some x) :
    l.foldl (fun _ a => g a) init = g x := by
  induction l generalizing init with
  | nil => simp at h
  | cons a as ih =>
    cases as with
    | nil =>
      simp only [List.getLast?_singleton, Option.some.injEq] at h
      simp [h]
    | cons b bs =>
      rw [List.foldl_cons]
      exact ih (g a) (by simpa using h)

/-- Claim C9: `UsingMatcher::run` leaves the index unchanged for any
candidate that is not a `UsingDecl`, `UsingShadowDecl` or `TypeAliasDecl`,
and for any alias declared inside a function or method; and for an accepted
`UsingDecl` with at least one shadow, the stored alias's target carries the
last shadow's underlying declaration (its SymbolID as `target.id`, its
fully qualified name as `target.name`). -/
theorem usingMatcher_kinds_and_last_shadow :
    (∀ (cfg : Config) (idx : Index) (c : AliasCand), c.kind = AliasKind.otherKind →
      usingMatcherRun cfg idx c = idx) ∧
    (∀ (cfg : Config) (idx : Index) (c : AliasCand), c.inFunctionOrMethod = true →
      usingMatcherRun cfg idx c = idx) ∧
    (∀ (cfg : Config) (idx : Index) (c : AliasCand) (shadows : List ShadowDesc)
        (s : ShadowDesc),
      c.kind = AliasKind.usingD shadows → shadows.getLast? = Option.some s →
      c.inFunctionOrMethod = false → c.inIgnoreList = false → c.validSourceRange = true →
      ¬(c.access = Access.priv ∧ cfg.ignorePrivateMembers = true) →
      idx.aliases.contains c.id = false →
      (usingMatcherRun cfg idx c).aliases.entries =
        idx.aliases.entries ++
          [(c.id,
            { ID := c.id, name := c.name, access := c.access,
              isRecordMember := c.isCXXClassMember,
              parentNamespaceID := c.parentNamespaceID,
              target := { name := s.underlyingName, id := s.underlyingId } })]) := by
  refine ⟨?_, ?_, ?_⟩
  · intro cfg idx c hk
    simp [usingMatcherRun, hk]
  · intro cfg idx c hf
    unfold usingMatcherRun
    cases hk : c.kind <;> simp [hf]
  · intro cfg idx c shadows s hk hlast hf hig hv hpriv hdup
    unfold usingMatcherRun
    rw [hk]
    simp only [hf, Bool.false_eq_true, ite_false, if_false]
    rw [if_neg (by simp [hig, hv, hpriv])]
    rw [if_neg (by simp only [bumpAliases, Database.bumpMatches, Database.contains] at hdup ⊢; simp [hdup])]
    simp only [bumpAliases, Database.bumpMatches, Database.insertNew, aliasTarget]
    rw [foldl_overwrite _ _ _ _ hlast]

/-- Claim C9 witness: the theorem's accepted-`UsingDecl` part at a concrete
candidate; the stored target is the second (last) shadow. -/
theorem usingMatcher_kinds_and_last_shadow_witness :
    (usingMatcherRun {} emptyIndex twoShadowCand).aliases.entries =
      emptyIndex.aliases.entries ++
        [(twoShadowCand.id,
          { ID := twoShadowCand.id, name := twoShadowCand.name,
            access := twoShadowCand.access,
            isRecordMember := twoShadowCand.isCXXClassMember,
            parentNamespaceID := twoShadowCand.parentNamespaceID,
            target := { name := "ns::B".data, id := 7 } })] :=
  usingMatcher_kinds_and_last_shadow.2.2 {} emptyIndex twoShadowCand
    [{ underlyingId := 5, underlyingName := "ns::A".data },
     { underlyingId := 7, underlyingName := "ns::B".data }]
    { underlyingId := 7, underlyingName := "ns::B".data }
    rfl rfl rfl rfl rfl (by decide) rfl

/-- The base-record fold of `updateRecordNames`, started at a positive
counter, separates every remaining base with `", "`. -/
theorem appendBaseStep_foldl (bs : List BaseRecord) (pre : Str) (n : Nat) (hn : 0 < n) :
    (bs.foldl appendBaseStep (pre, n)).1 =
      pre ++ (bs.map (fun b => ", ".data ++ renderBase b)).flatten := by
  induction bs generalizing pre n with
  | nil => simp
  | cons b bs ih =>
    rw [List.foldl_cons]
    have hstep : appendBaseStep (pre, n) b =
        (pre ++ ", ".data ++ renderBase b, n + 1) := by
      simp [appendBaseStep, renderBase, hn, List.append_assoc]
    rw [hstep, ih (pre ++ ", ".data ++ renderBase b) (n + 1) (Nat.succ_pos n)]
    simp [List.append_assoc]

/-- Separator bookkeeping: the head base takes no separator, the tail bases
one `", "` each, matching `joinStr`. -/
theorem renderBase_join (b : BaseRecord) (bs : List BaseRecord) :
    renderBase b ++ (bs.map (fun x => ", ".data ++ renderBase x)).flatten =
      joinStr ", ".data ((b :: bs).map renderBase) := by
  induction bs generalizing b with
  | nil => simp [joinStr]
  | cons c cs ih =>
    simp only [List.map_cons, List.flatten, joinStr]
    rw [← List.map_cons]
    rw [← ih c]
    simp [List.append_assoc]

/-- `appendBases` rendered in closed form. -/
theorem appendBases_eq (proto : Str) (b : BaseRecord) (bs : List BaseRecord) :
    appendBases proto (b :: bs) =
      proto ++ " : ".data ++ joinStr ", ".data ((b :: bs).map renderBase) := by
  unfold appendBases
  rw [List.foldl_cons]
  have hstep : appendBaseStep (proto ++ " : ".data, 0) b =
      (proto ++ " : ".data ++ renderBase b, 1) := by
    simp [appendBaseStep, renderBase, List.append_assoc]
  rw [hstep, appendBaseStep_foldl bs _ 1 Nat.one_pos]
  rw [List.append_assoc, renderBase_join]

/-- Claim C5 (amended): `updateRecordNames` appends to the proto of every
record with non-empty `baseRecords` the string `" : "` followed by the
comma-separated base list, each base rendered as its stored access keyword
(`public ` / `private ` / `protected `; a stored access of `none` would
contribute no keyword) followed by the base name; records without bases are
unchanged.  However, the access the extractor stores is the front-end's
semantic access (`getAccessSpecifier`), which substitutes the language
default when no specifier was written, so extracted bases never carry
access `none` and a base whose specifier was not written still receives a
keyword. -/
theorem updateRecordNames_appends_inheritance :
    (∀ (idx : Index) (k : SymbolID) (c : RecordSymbol), (k, c) ∈ idx.records.entries →
      (c.baseRecords ≠ [] →
        (k, { c with proto := inheritedProto c }) ∈
          (updateRecordNames idx).records.entries) ∧
      (c.baseRecords = [] → (k, c) ∈ (updateRecordNames idx).records.entries)) ∧
    (∀ (cfg : Config) (c : RecCand) (br : BaseRecord),
      br ∈ (buildRecordSymbol cfg c).baseRecords → br.access ≠ Access.nospec) := by
  constructor
  · intro idx k c hmem
    constructor
    · intro hne
      obtain ⟨b, bs, hbs⟩ := List.exists_cons_of_ne_nil hne
      have : updateOneRecordName c = { c with proto := inheritedProto c } := by
        unfold updateOneRecordName inheritedProto
        rw [if_pos (by rw [hbs]; simp)]
        rw [hbs, appendBases_eq, ← hbs]
      simp only [updateRecordNames, Database.mapValues]
      exact List.mem_map.mpr ⟨(k, c), hmem, by rw [this]⟩
    · intro hnil
      have : updateOneRecordName c = c := by
        unfold updateOneRecordName
        rw [if_neg (by rw [hnil]; simp)]
      simp only [updateRecordNames, Database.mapValues]
      exact List.mem_map.mpr ⟨(k, c), hmem, by rw [this]⟩
  · intro cfg c br hbr
    simp only [buildRecordSymbol] at hbr
    by_cases hdef : c.isThisDeclarationADefinition = true
    case neg =>
      rw [if_neg hdef] at hbr
      simp at hbr
    case pos =>
      rw [if_pos hdef] at hbr
      obtain ⟨b, _, hsome⟩ := List.mem_filterMap.mp hbr
      by_cases hrec : b.hasRecordDecl = false
      · rw [if_pos hrec] at hsome
        exact absurd hsome (by simp)
      · rw [if_neg hrec] at hsome
        have haccess : br.access = baseAccessSpecifier b.writtenAccess c.kindName := by
          have := Option.some.inj hsome
          rw [← this]
        rw [haccess]
        unfold baseAccessSpecifier
        split
        · split
          · exact fun h => absurd h (by simp)
          · exact fun h => absurd h (by simp)
        · next hw => exact hw

/-- Claim C5 witness: the amended theorem at a record with one public base;
its proto gains `" : public B"`. -/
theorem updateRecordNames_appends_inheritance_witness :
    (4, { recWithBase with proto := inheritedProto recWithBase }) ∈
      (updateRecordNames idxWithBase).records.entries :=
  (updateRecordNames_appends_inheritance.1 idxWithBase 4 recWithBase (by decide)).1
    (by decide)

/-- Claim C5 counterexample: the claim states that a base receives an access
keyword iff the specifier was explicitly written.  For `struct D : B`
(written access `none`) the indexed record's proto nevertheless ends in
`"public B"`, because the extractor stores the front-end's default-filled
access, never `none`. -/
theorem updateRecordNames_unwritten_spec_still_prefixed :
    (structDCand.bases.map (fun b => b.writtenAccess)) = [Access.nospec] ∧
    ((updateRecordNames (processEvents {} [Event.recEv structDCand] emptyIndex)).records.entries.map
      (fun p => p.2.proto)) = ["struct D : public B".data] := by
  constructor
  · decide
  · decide

/-- `mapValues` does not change which keys a database contains. -/
theorem contains_mapValues {T : Type} (g : T → T) (db : Database T) (id : SymbolID) :
    (Database.mapValues g db).contains id = db.contains id := by
  simp only [Database.mapValues, Database.contains, List.any_map]
  rfl

/-- `pruneTypeRefs` does not change which ids `haveId` accepts. -/
theorem haveId_pruneTypeRefs (idx : Index) (id : SymbolID) :
    haveId (pruneTypeRefs idx) id = haveId idx id := by
  simp [haveId, pruneTypeRefs, contains_mapValues]

/-- `pruneRef` realizes the spec-side per-ref relation: name kept, id kept
iff it resolves, nulled otherwise. -/
theorem pruneRef_rel (idx : Index) (t : TypeRef) : prunedRefRel idx t (pruneRef idx t) := by
  unfold prunedRefRel pruneRef
  refine ⟨by split <;> rfl, ?_, ?_⟩
  · intro h
    rw [if_neg (by simp [h])]
  · intro h
    rw [if_pos h]

/-- After `pruneRef`, the id is null or resolves. -/
theorem pruneRef_resolved_or_null (idx : Index) (t : TypeRef) :
    refResolvedOrNull idx (pruneRef idx t) := by
  unfold refResolvedOrNull pruneRef
  by_cases h : haveId idx t.id = false
  · rw [if_pos h]
    exact Or.inl rfl
  · rw [if_neg h]
    exact Or.inr (by revert h; cases haveId idx t.id <;> simp)

/-- `refResolvedOrNull` is insensitive to `pruneTypeRefs` of the index. -/
theorem refResolvedOrNull_prune_iff (idx : Index) (t : TypeRef) :
    refResolvedOrNull (pruneTypeRefs idx) t ↔ refResolvedOrNull idx t := by
  unfold refResolvedOrNull
  rw [haveId_pruneTypeRefs]

/-- Pruning a second time with an equally-resolving index changes nothing. -/
theorem pruneRef_again (idx2 idx : Index) (t : TypeRef)
    (hsame : ∀ i, haveId idx2 i = haveId idx i) :
    pruneRef idx2 (pruneRef idx t) = pruneRef idx t := by
  by_cases h : haveId idx t.id = false
  · have e1 : pruneRef idx t = { t with id := nullID } := by
      unfold pruneRef
      rw [if_pos h]
    rw [e1]
    unfold pruneRef
    by_cases h0 : haveId idx nullID = false
    · rw [if_pos (show haveId idx2 ({ t with id := nullID } : TypeRef).id = false from by rw [hsame]; exact h0)]
    · rw [if_neg (show ¬haveId idx2 ({ t with id := nullID } : TypeRef).id = false from by rw [hsame]; exact h0)]
  · have e1 : pruneRef idx t = t := by
      unfold pruneRef
      rw [if_neg h]
    rw [e1]
    unfold pruneRef
    rw [if_neg (show ¬haveId idx2 t.id = false from by rw [hsame]; exact h)]

/-- A list is `Forall₂`-related to its image under a map when every element
is related to its image. -/
theorem forall₂_map_right_self {α : Type} {R : α → α → Prop} (g : α → α) (l : List α)
    (h : ∀ x ∈ l, R x (g x)) : List.Forall₂ R l (l.map g) := by
  induction l with
  | nil => exact List.Forall₂.nil
  | cons a as ih =>
    exact List.Forall₂.cons (h a (by simp)) (ih (fun x hx => h x (by simp [hx])))

/-- `pruneFnRefs` realizes the spec-side frame for one function. -/
theorem pruneFnRefs_rel (idx : Index) (f : FunctionSymbol) :
    prunedFnRel idx f (pruneFnRefs idx f) := by
  refine ⟨rfl, rfl, rfl, rfl, rfl, rfl, rfl, rfl, pruneRef_rel idx f.returnType, ?_⟩
  exact forall₂_map_right_self _ _ (fun a _ => ⟨rfl, rfl, pruneRef_rel idx a.type⟩)

/-- `pruneRecRefs` realizes the spec-side frame for one record. -/
theorem pruneRecRefs_rel (idx : Index) (c : RecordSymbol) :
    prunedRecRel idx c (pruneRecRefs idx c) := by
  refine ⟨rfl, rfl, rfl, rfl, rfl, rfl, rfl, rfl, rfl, rfl, ?_⟩
  exact forall₂_map_right_self _ _ (fun v _ => ⟨rfl, rfl, rfl, rfl, pruneRef_rel idx v.type⟩)

/-- `pruneAliasRefs` realizes the spec-side frame for one alias. -/
theorem pruneAliasRefs_rel (idx : Index) (a : AliasSymbol) :
    prunedAliasRel idx a (pruneAliasRefs idx a) :=
  ⟨rfl, rfl, rfl, rfl, rfl, pruneRef_rel idx a.target⟩

/-- Claim C7: `pruneTypeRefs` nulls the id of exactly those TypeRefs in
function return types, function parameters, record member variables and
alias targets whose id does not resolve to a record, enum or alias, keeps
every name and every other field of every symbol, leaves the enums and
namespaces databases, the key sequences and the match counters unchanged,
and afterwards each of these TypeRef ids is either null or resolves in the
resulting index. -/
theorem pruneTypeRefs_nulls_exactly_unresolvable (idx : Index) :
    List.Forall₂ (fun p q => p.1 = q.1 ∧ prunedFnRel idx p.2 q.2)
      idx.functions.entries (pruneTypeRefs idx).functions.entries ∧
    List.Forall₂ (fun p q => p.1 = q.1 ∧ prunedRecRel idx p.2 q.2)
      idx.records.entries (pruneTypeRefs idx).records.entries ∧
    List.Forall₂ (fun p q => p.1 = q.1 ∧ prunedAliasRel idx p.2 q.2)
      idx.aliases.entries (pruneTypeRefs idx).aliases.entries ∧
    (pruneTypeRefs idx).enums = idx.enums ∧
    (pruneTypeRefs idx).namespaces = idx.namespaces ∧
    (pruneTypeRefs idx).functions.numMatches = idx.functions.numMatches ∧
    (pruneTypeRefs idx).records.numMatches = idx.records.numMatches ∧
    (pruneTypeRefs idx).aliases.numMatches = idx.aliases.numMatches ∧
    (∀ (k : SymbolID) (f : FunctionSymbol),
      (k, f) ∈ (pruneTypeRefs idx).functions.entries →
      refResolvedOrNull (pruneTypeRefs idx) f.returnType ∧
      ∀ a ∈ f.params, refResolvedOrNull (pruneTypeRefs idx) a.type) ∧
    (∀ (k : SymbolID) (r : RecordSymbol),
      (k, r) ∈ (pruneTypeRefs idx).records.entries →
      ∀ v ∈ r.vars, refResolvedOrNull (pruneTypeRefs idx) v.type) ∧
    (∀ (k : SymbolID) (a : AliasSymbol),
      (k, a) ∈ (pruneTypeRefs idx).aliases.entries →
      refResolvedOrNull (pruneTypeRefs idx) a.target) := by
  refine ⟨?_, ?_, ?_, rfl, rfl, rfl, rfl, rfl, ?_, ?_, ?_⟩
  · exact forall₂_map_right_self _ _ (fun p _ => ⟨rfl, pruneFnRefs_rel idx p.2⟩)
  · exact forall₂_map_right_self _ _ (fun p _ => ⟨rfl, pruneRecRefs_rel idx p.2⟩)
  · exact forall₂_map_right_self _ _ (fun p _ => ⟨rfl, pruneAliasRefs_rel idx p.2⟩)
  · intro k f hmem
    obtain ⟨p, _, hp⟩ := List.mem_map.mp hmem
    have hf : f = pruneFnRefs idx p.2 := (congrArg Prod.snd hp).symm
    constructor
    · rw [hf]
      exact (refResolvedOrNull_prune_iff idx _).mpr (pruneRef_resolved_or_null idx p.2.returnType)
    · intro a ha
      rw [hf] at ha
      obtain ⟨a0, _, ha0⟩ := List.mem_map.mp ha
      rw [← ha0]
      exact (refResolvedOrNull_prune_iff idx _).mpr (pruneRef_resolved_or_null idx a0.type)
  · intro k r hmem
    obtain ⟨p, _, hp⟩ := List.mem_map.mp hmem
    have hr : r = pruneRecRefs idx p.2 := (congrArg Prod.snd hp).symm
    intro v hv
    rw [hr] at hv
    obtain ⟨v0, _, hv0⟩ := List.mem_map.mp hv
    rw [← hv0]
    exact (refResolvedOrNull_prune_iff idx _).mpr (pruneRef_resolved_or_null idx v0.type)
  · intro k a hmem
    obtain ⟨p, _, hp⟩ := List.mem_map.mp hmem
    have ha : a = pruneAliasRefs idx p.2 := (congrArg Prod.snd hp).symm
    rw [ha]
    exact (refResolvedOrNull_prune_iff idx _).mpr (pruneRef_resolved_or_null idx p.2.target)

/-- Claim C7 witness: the post-resolution part at a one-function index whose
return type id (9) is unresolvable. -/
theorem pruneTypeRefs_nulls_exactly_unresolvable_witness :
    refResolvedOrNull (pruneTypeRefs idxWithDeadRef)
      (pruneFnRefs idxWithDeadRef fnWithDeadRef).returnType ∧
    ∀ a ∈ (pruneFnRefs idxWithDeadRef fnWithDeadRef).params,
      refResolvedOrNull (pruneTypeRefs idxWithDeadRef) a.type :=
  (pruneTypeRefs_nulls_exactly_unresolvable idxWithDeadRef).2.2.2.2.2.2.2.2.1 1
    (pruneFnRefs idxWithDeadRef fnWithDeadRef) (by decide)

/-- A double `mapValues` collapses when the outer function fixes every image
of the inner one. -/
theorem mapValues_mapValues_self {T : Type} (g2 g : T → T) (db : Database T)
    (h : ∀ x, g2 (g x) = g x) :
    Database.mapValues g2 (Database.mapValues g db) = Database.mapValues g db := by
  unfold Database.mapValues
  simp only [List.map_map]
  congr 1
  apply List.map_congr_left
  intro p _
  simp only [Function.comp]
  rw [h p.2]

/-- A second function-ref prune (against the pruned index) changes
nothing. -/
theorem pruneFnRefs_again (idx : Index) (f : FunctionSymbol) :
    pruneFnRefs (pruneTypeRefs idx) (pruneFnRefs idx f) = pruneFnRefs idx f := by
  cases f with
  | mk i n pr pT nS rT params acc irm pns =>
    unfold pruneFnRefs
    simp only [List.map_map]
    congr 1
    · exact pruneRef_again _ _ _ (haveId_pruneTypeRefs idx)
    · apply List.map_congr_left
      intro a _
      cases a with
      | mk an aty ad =>
        simp only [Function.comp]
        congr 1
        exact pruneRef_again _ _ _ (haveId_pruneTypeRefs idx)

/-- A second record-var prune (against the pruned index) changes nothing. -/
theorem pruneRecRefs_again (idx : Index) (c : RecordSymbol) :
    pruneRecRefs (pruneTypeRefs idx) (pruneRecRefs idx c) = pruneRecRefs idx c := by
  cases c with
  | mk i n pr ty acc pns tps brs mids aids vars =>
    unfold pruneRecRefs
    simp only [List.map_map]
    congr 1
    apply List.map_congr_left
    intro v _
    cases v with
    | mk vs vn vd va vt =>
      simp only [Function.comp]
      congr 1
      exact pruneRef_again _ _ _ (haveId_pruneTypeRefs idx)

/-- A second alias-target prune (against the pruned index) changes
nothing. -/
theorem pruneAliasRefs_again (idx : Index) (a : AliasSymbol) :
    pruneAliasRefs (pruneTypeRefs idx) (pruneAliasRefs idx a) = pruneAliasRefs idx a := by
  cases a with
  | mk i n acc irm pns target =>
    unfold pruneAliasRefs
    congr 1
    exact pruneRef_again _ _ _ (haveId_pruneTypeRefs idx)

/-- Claim C10: `pruneTypeRefs` is idempotent — the first application nulls
every unresolvable id without changing database membership, so a second
application changes nothing. -/
theorem pruneTypeRefs_idempotent (idx : Index) :
    pruneTypeRefs (pruneTypeRefs idx) = pruneTypeRefs idx := by
  have hfun := mapValues_mapValues_self (pruneFnRefs (pruneTypeRefs idx)) (pruneFnRefs idx)
    idx.functions (pruneFnRefs_again idx)
  have hrec := mapValues_mapValues_self (pruneRecRefs (pruneTypeRefs idx)) (pruneRecRefs idx)
    idx.records (pruneRecRefs_again idx)
  have halias := mapValues_mapValues_self (pruneAliasRefs (pruneTypeRefs idx)) (pruneAliasRefs idx)
    idx.aliases (pruneAliasRefs_again idx)
  show { pruneTypeRefs idx with
      functions :=
        Database.mapValues (pruneFnRefs (pruneTypeRefs idx)) (pruneTypeRefs idx).functions
      records :=
        Database.mapValues (pruneRecRefs (pruneTypeRefs idx)) (pruneTypeRefs idx).records
      aliases :=
        Database.mapValues (pruneAliasRefs (pruneTypeRefs idx)) (pruneTypeRefs idx).aliases } =
    pruneTypeRefs idx
  have e1 : Database.mapValues (pruneFnRefs (pruneTypeRefs idx)) (pruneTypeRefs idx).functions
      = (pruneTypeRefs idx).functions := hfun
  have e2 : Database.mapValues (pruneRecRefs (pruneTypeRefs idx)) (pruneTypeRefs idx).records
      = (pruneTypeRefs idx).records := hrec
  have e3 : Database.mapValues (pruneAliasRefs (pruneTypeRefs idx)) (pruneTypeRefs idx).aliases
      = (pruneTypeRefs idx).aliases := halias
  rw [e1, e2, e3]

/-- Offsets recomputed as part lengths are consistent with the recomposed
concatenation, and the name slice matches when the last part starts with
the name. -/
theorem offsets_of_concat (a b c name : Str) (h : c.take name.length = name) :
    a.length ≤ a.length + b.length ∧
    a.length + b.length ≤ (a ++ b ++ c).length ∧
    ((a ++ b ++ c).drop (a.length + b.length)).take name.length = name := by
  refine ⟨Nat.le_add_right _ _, ?_, ?_⟩
  · simp only [List.length_append]
    omega
  · have hdrop : (a ++ b ++ c).drop (a.length + b.length) = c := by
      rw [← List.length_append]
      exact List.drop_left _ _
    rw [hdrop, h]

/-- Claim C6 (amended): for a record's template parameters `tps` and a
method `f` with well-formed offsets (`postTemplate ≤ nameStart ≤
len(proto)`) whose proto carries the name at `nameStart` and whose
substituted rest-part still starts with the substituted name, the per-method
step of `updateMemberFunctions` applies the substitution to the three proto
parts, recomposes the proto from them, substitutes every parameter's type
name and default value, and afterwards `0 ≤ postTemplate ≤ nameStart ≤
len(proto)` and `proto[nameStart : nameStart + len(name)] = name` hold
again.  (Without the rest-part hypothesis the name slice can break: see the
counterexample.) -/
theorem updateMemberFn_offsets (tps : List TemplateParam) (f : FunctionSymbol)
    (h1 : f.postTemplate ≤ f.nameStart) (h2 : f.nameStart ≤ f.proto.length)
    (h3 : (f.proto.drop f.nameStart).take f.name.length = f.name)
    (h4 : (fixTypeParam tps (f.proto.drop f.nameStart)).take
        (fixTypeParam tps f.name).length = fixTypeParam tps f.name) :
    ((updateMemberFn tps f).postTemplate ≤ (updateMemberFn tps f).nameStart) ∧
    ((updateMemberFn tps f).nameStart ≤ (updateMemberFn tps f).proto.length) ∧
    (((updateMemberFn tps f).proto.drop (updateMemberFn tps f).nameStart).take
        (updateMemberFn tps f).name.length = (updateMemberFn tps f).name) ∧
    ((updateMemberFn tps f).proto =
      fixTypeParam tps (f.proto.take f.postTemplate) ++
        fixTypeParam tps ((f.proto.drop f.postTemplate).take (f.nameStart - f.postTemplate)) ++
        fixTypeParam tps (f.proto.drop f.nameStart)) ∧
    ((updateMemberFn tps f).params = f.params.map (fun a =>
      { a with type := { a.type with name := fixTypeParam tps a.type.name },
               defaultValue := fixTypeParam tps a.defaultValue })) := by
  by_cases hch :
      fixTypeParam tps (f.proto.take f.postTemplate) ++
        fixTypeParam tps ((f.proto.drop f.postTemplate).take (f.nameStart - f.postTemplate)) ++
        fixTypeParam tps (f.proto.drop f.nameStart) = f.proto
  · have hupd : updateMemberFn tps f = { f with params := f.params.map (fun a =>
        { a with type := { a.type with name := fixTypeParam tps a.type.name },
                 defaultValue := fixTypeParam tps a.defaultValue }) } := by
      simp only [updateMemberFn]
      rw [if_pos hch]
    rw [hupd]
    exact ⟨h1, h2, h3, hch.symm, rfl⟩
  · have hupd : updateMemberFn tps f = { f with
        proto := fixTypeParam tps (f.proto.take f.postTemplate) ++
          fixTypeParam tps ((f.proto.drop f.postTemplate).take (f.nameStart - f.postTemplate)) ++
          fixTypeParam tps (f.proto.drop f.nameStart),
        name := fixTypeParam tps f.name,
        postTemplate := (fixTypeParam tps (f.proto.take f.postTemplate)).length,
        nameStart := (fixTypeParam tps (f.proto.take f.postTemplate)).length +
          (fixTypeParam tps
            ((f.proto.drop f.postTemplate).take (f.nameStart - f.postTemplate))).length,
        params := f.params.map (fun a =>
          { a with type := { a.type with name := fixTypeParam tps a.type.name },
                   defaultValue := fixTypeParam tps a.defaultValue }) } := by
      simp only [updateMemberFn]
      rw [if_neg hch]
    rw [hupd]
    have hoc := offsets_of_concat (fixTypeParam tps (f.proto.take f.postTemplate))
      (fixTypeParam tps ((f.proto.drop f.postTemplate).take (f.nameStart - f.postTemplate)))
      (fixTypeParam tps (f.proto.drop f.nameStart)) (fixTypeParam tps f.name) h4
    exact ⟨hoc.1, hoc.2.1, hoc.2.2, rfl, rfl⟩

/-- Claim C6 witness: the amended theorem at a record with a template
parameter `T` and a method proto `void f(type-parameter-0-0)`. -/
theorem updateMemberFn_offsets_witness :
    ((updateMemberFn tWitnessTps tWitnessFn).postTemplate ≤
      (updateMemberFn tWitnessTps tWitnessFn).nameStart) ∧
    ((updateMemberFn tWitnessTps tWitnessFn).nameStart ≤
      (updateMemberFn tWitnessTps tWitnessFn).proto.length) ∧
    (((updateMemberFn tWitnessTps tWitnessFn).proto.drop
        (updateMemberFn tWitnessTps tWitnessFn).nameStart).take
        (updateMemberFn tWitnessTps tWitnessFn).name.length =
      (updateMemberFn tWitnessTps tWitnessFn).name) ∧
    ((updateMemberFn tWitnessTps tWitnessFn).proto =
      fixTypeParam tWitnessTps (tWitnessFn.proto.take tWitnessFn.postTemplate) ++
        fixTypeParam tWitnessTps ((tWitnessFn.proto.drop tWitnessFn.postTemplate).take
          (tWitnessFn.nameStart - tWitnessFn.postTemplate)) ++
        fixTypeParam tWitnessTps (tWitnessFn.proto.drop tWitnessFn.nameStart)) ∧
    ((updateMemberFn tWitnessTps tWitnessFn).params = tWitnessFn.params.map (fun a =>
      { a with type := { a.type with name := fixTypeParam tWitnessTps a.type.name },
               defaultValue := fixTypeParam tWitnessTps a.defaultValue })) :=
  updateMemberFn_offsets tWitnessTps tWitnessFn (by decide) (by decide) (by decide)
    (by decide)

/-- Claim C6 counterexample: for the record `straddleRec` (template
parameter named `AB`) and its method `straddleFn`, the pre-pass offsets are
well formed and the proto carries the name at `nameStart`, yet after
`updateMemberFunctions` the stored function violates
`proto[nameStart : nameStart + len(name)] = name`: the substitution
rewrites the pattern occurrence that overlaps the end of the name. -/
theorem updateMemberFunctions_name_slice_broken :
    (straddleFn.postTemplate ≤ straddleFn.nameStart ∧
     straddleFn.nameStart ≤ straddleFn.proto.length ∧
     (straddleFn.proto.drop straddleFn.nameStart).take straddleFn.name.length =
       straddleFn.name) ∧
    ((updateMemberFunctions idxStraddle).functions.entries.all (fun p =>
      decide (((p.2.proto.drop p.2.nameStart).take p.2.name.length) = p.2.name))) =
      false := by
  constructor
  · exact ⟨by decide, by decide, by decide⟩
  · decide

/-- Fold invariant: a property preserved by every step holds at the end. -/
theorem foldl_inv {α β : Type} (step : β → α → β) (P : β → Prop) (l : List α) :
    ∀ b, P b → (∀ b x, x ∈ l → P b → P (step b x)) → P (l.foldl step b) := by
  induction l with
  | nil =>
    intro b hb _
    exact hb
  | cons a as ih =>
    intro b hb hstep
    exact ih (step b a) (hstep b a (by simp) hb)
      (fun b x hx hP => hstep b x (by simp [hx]) hP)

/-- An entry of `mapAt` descends from an entry of the original database with
the same key, either untouched or rewritten. -/
theorem mem_mapAt {T : Type} (db : Database T) (id : SymbolID) (g : T → T)
    (k : SymbolID) (v' : T) (h : (k, v') ∈ (db.mapAt id g).entries) :
    ∃ v, (k, v) ∈ db.entries ∧ (v' = v ∨ v' = g v) := by
  obtain ⟨p, hp, he⟩ := List.mem_map.mp h
  by_cases hid : p.1 = id
  · rw [if_pos hid] at he
    have h1 : p.1 = k := congrArg Prod.fst he
    have h2 : g p.2 = v' := congrArg Prod.snd he
    refine ⟨p.2, ?_, Or.inr h2.symm⟩
    rw [← h1]
    simpa using hp
  · rw [if_neg hid] at he
    exact ⟨v', he ▸ hp, Or.inl rfl⟩

/-- `updateMemberFn` does not touch ID, access, record-membership or the
parent pointer. -/
theorem updateMemberFn_fields (tps : List TemplateParam) (f : FunctionSymbol) :
    (updateMemberFn tps f).ID = f.ID ∧ (updateMemberFn tps f).access = f.access ∧
    (updateMemberFn tps f).isRecordMember = f.isRecordMember ∧
    (updateMemberFn tps f).parentNamespaceID = f.parentNamespaceID := by
  by_cases hch :
      fixTypeParam tps (f.proto.take f.postTemplate) ++
        fixTypeParam tps ((f.proto.drop f.postTemplate).take (f.nameStart - f.postTemplate)) ++
        fixTypeParam tps (f.proto.drop f.nameStart) = f.proto
  · have hupd : updateMemberFn tps f = { f with params := f.params.map (fun a =>
        { a with type := { a.type with name := fixTypeParam tps a.type.name },
                 defaultValue := fixTypeParam tps a.defaultValue }) } := by
      simp only [updateMemberFn]
      rw [if_pos hch]
    rw [hupd]
    exact ⟨rfl, rfl, rfl, rfl⟩
  · have hupd : updateMemberFn tps f = { f with
        proto := fixTypeParam tps (f.proto.take f.postTemplate) ++
          fixTypeParam tps ((f.proto.drop f.postTemplate).take (f.nameStart - f.postTemplate)) ++
          fixTypeParam tps (f.proto.drop f.nameStart),
        name := fixTypeParam tps f.name,
        postTemplate := (fixTypeParam tps (f.proto.take f.postTemplate)).length,
        nameStart := (fixTypeParam tps (f.proto.take f.postTemplate)).length +
          (fixTypeParam tps
            ((f.proto.drop f.postTemplate).take (f.nameStart - f.postTemplate))).length,
        params := f.params.map (fun a =>
          { a with type := { a.type with name := fixTypeParam tps a.type.name },
                   defaultValue := fixTypeParam tps a.defaultValue }) } := by
      simp only [updateMemberFn]
      rw [if_neg hch]
    rw [hupd]
    exact ⟨rfl, rfl, rfl, rfl⟩

/-- `fnFieldsPreserved` holds reflexively. -/
theorem fnFieldsPreserved_refl (db : Database FunctionSymbol) : fnFieldsPreserved db db :=
  fun k f' h => ⟨f', h, rfl, rfl, rfl, rfl⟩

/-- One `methodIDs` step of `updateMemberFunctions` keeps the preserved
fields. -/
theorem fnFieldsPreserved_step (db0 db : Database FunctionSymbol) (mid : SymbolID)
    (tps : List TemplateParam) (h : fnFieldsPreserved db0 db) :
    fnFieldsPreserved db0
      (if db.contains mid = true then db.mapAt mid (updateMemberFn tps) else db) := by
  split
  · intro k f' hmem
    obtain ⟨f1, hf1, hor⟩ := mem_mapAt db mid (updateMemberFn tps) k f' hmem
    obtain ⟨f0, hf0, e1, e2, e3, e4⟩ := h k f1 hf1
    rcases hor with hor | hor
    · exact ⟨f0, hf0, hor ▸ e1, hor ▸ e2, hor ▸ e3, hor ▸ e4⟩
    · obtain ⟨u1, u2, u3, u4⟩ := updateMemberFn_fields tps f1
      exact ⟨f0, hf0, hor ▸ (u1.trans e1), hor ▸ (u2.trans e2),
        hor ▸ (u3.trans e3), hor ▸ (u4.trans e4)⟩
  · exact h

/-- `updateMemberFunctions` keeps the preserved fields of every surviving
function. -/
theorem updateMemberFunctions_preserves_fields (idx : Index) :
    fnFieldsPreserved idx.functions (updateMemberFunctions idx).functions := by
  unfold updateMemberFunctions
  apply foldl_inv _ (fnFieldsPreserved idx.functions) _ _ (fnFieldsPreserved_refl _)
  intro db p _ hP
  unfold updateMethodsOfRecord
  apply foldl_inv _ (fnFieldsPreserved idx.functions) _ _ hP
  intro db2 mid _ hP2
  exact fnFieldsPreserved_step _ _ mid _ hP2

/-- An entry of `mapValues` descends from an entry of the original database
with the same key. -/
theorem mem_mapValues {T : Type} (g : T → T) (db : Database T) (k : SymbolID) (v' : T)
    (h : (k, v') ∈ (Database.mapValues g db).entries) :
    ∃ v, (k, v) ∈ db.entries ∧ v' = g v := by
  obtain ⟨p, hp, he⟩ := List.mem_map.mp h
  have h1 : p.1 = k := congrArg Prod.fst he
  have h2 : g p.2 = v' := congrArg Prod.snd he
  refine ⟨p.2, ?_, h2.symm⟩
  rw [← h1]
  simpa using hp

/-- `pruneMethods` only ever removes entries. -/
theorem pruneMethods_subset (idx : Index) (k : SymbolID) (f : FunctionSymbol)
    (h : (k, f) ∈ (pruneMethods idx).functions.entries) : (k, f) ∈ idx.functions.entries :=
  (List.mem_filter.mp h).1

/-- After `pruneMethods`, every surviving record-member function's parent
record is present in the (unchanged) records database. -/
theorem pruneMethods_parent_present (idx : Index) (k : SymbolID) (f : FunctionSymbol)
    (h : (k, f) ∈ (pruneMethods idx).functions.entries) (hm : f.isRecordMember = true) :
    idx.records.contains f.parentNamespaceID = true := by
  obtain ⟨hmem, hkeep⟩ := List.mem_filter.mp h
  by_contra hc
  have hc' : idx.records.contains f.parentNamespaceID = false := by
    revert hc
    cases idx.records.contains f.parentNamespaceID <;> simp
  have hin : k ∈ toBePruned idx := by
    unfold toBePruned
    refine List.mem_map.mpr ⟨(k, f), List.mem_filter.mpr ⟨hmem, ?_⟩, rfl⟩
    simp [hm, hc']
  have hcontains : (toBePruned idx).contains k = true := by
    simpa using hin
  rw [hcontains] at hkeep
  simp at hkeep

/-- `updateOneRecordName` does not touch `methodIDs`. -/
theorem updateOneRecordName_methodIDs (c : RecordSymbol) :
    (updateOneRecordName c).methodIDs = c.methodIDs := by
  unfold updateOneRecordName
  split <;> rfl

/-- `pruneTypeRefs` does not change which records are present. -/
theorem pruneTypeRefs_records_contains (idx : Index) (id : SymbolID) :
    (pruneTypeRefs idx).records.contains id = idx.records.contains id :=
  contains_mapValues _ _ _

/-- `updateRecordNames` does not change which records are present. -/
theorem updateRecordNames_records_contains (idx : Index) (id : SymbolID) :
    (updateRecordNames idx).records.contains id = idx.records.contains id :=
  contains_mapValues _ _ _

/-- The whole post-pass sequence does not change which records are
present. -/
theorem postPasses_records_contains (idx : Index) (id : SymbolID) :
    (postPasses idx).records.contains id = idx.records.contains id :=
  calc (postPasses idx).records.contains id
      = (updateRecordNames (resolveNamespaces (pruneMethods idx))).records.contains id :=
        pruneTypeRefs_records_contains _ _
    _ = idx.records.contains id := updateRecordNames_records_contains _ _

/-- Claim C4 (amended): after all post-passes, every record's `methodIDs`
list is exactly what extraction stored — the passes delete functions, never
method references, so an entry need not resolve (it resolves or the
function was filtered or pruned).  What does hold: every surviving
function's `parentNamespaceID` and `isRecordMember` are unchanged by the
passes, and every surviving function with `isRecordMember = true` has its
`parentNamespaceID` (the borrowed parent-record pointer, equal to the
owning record's ID at extraction time) resolving to a record present in the
final Index. -/
theorem postPasses_methods_and_parents (idx : Index) :
    (∀ (k : SymbolID) (r' : RecordSymbol), (k, r') ∈ (postPasses idx).records.entries →
      ∃ r, (k, r) ∈ idx.records.entries ∧ r'.methodIDs = r.methodIDs) ∧
    (∀ (k : SymbolID) (f' : FunctionSymbol), (k, f') ∈ (postPasses idx).functions.entries →
      ∃ f, (k, f) ∈ idx.functions.entries ∧ f'.parentNamespaceID = f.parentNamespaceID ∧
        f'.isRecordMember = f.isRecordMember) ∧
    (∀ (k : SymbolID) (f' : FunctionSymbol), (k, f') ∈ (postPasses idx).functions.entries →
      f'.isRecordMember = true →
      (postPasses idx).records.contains f'.parentNamespaceID = true) := by
  refine ⟨?_, ?_, ?_⟩
  · intro k r' hmem
    obtain ⟨r3, hr3, he3⟩ := mem_mapValues
      (pruneRecRefs (updateMemberFunctions (updateRecordNames (resolveNamespaces (pruneMethods idx)))))
      (updateRecordNames (resolveNamespaces (pruneMethods idx))).records k r' hmem
    obtain ⟨r0, hr0, he0⟩ := mem_mapValues updateOneRecordName
      (pruneMethods idx).records k r3 hr3
    refine ⟨r0, hr0, ?_⟩
    rw [he3]
    have : (pruneRecRefs
        (updateMemberFunctions (updateRecordNames (resolveNamespaces (pruneMethods idx))))
        r3).methodIDs = r3.methodIDs := rfl
    rw [this, he0, updateOneRecordName_methodIDs]
  · intro k f' hmem
    obtain ⟨f4, hf4, he4⟩ := mem_mapValues
      (pruneFnRefs (updateMemberFunctions (updateRecordNames (resolveNamespaces (pruneMethods idx)))))
      (updateMemberFunctions (updateRecordNames (resolveNamespaces (pruneMethods idx)))).functions
      k f' hmem
    obtain ⟨f1, hf1, _, _, e3, e4⟩ :=
      updateMemberFunctions_preserves_fields
        (updateRecordNames (resolveNamespaces (pruneMethods idx))) k f4 hf4
    have hf1' : (k, f1) ∈ (pruneMethods idx).functions.entries := hf1
    refine ⟨f1, pruneMethods_subset idx k f1 hf1', ?_, ?_⟩
    · rw [he4]
      exact e4
    · rw [he4]
      exact e3
  · intro k f' hmem hm
    obtain ⟨f4, hf4, he4⟩ := mem_mapValues
      (pruneFnRefs (updateMemberFunctions (updateRecordNames (resolveNamespaces (pruneMethods idx)))))
      (updateMemberFunctions (updateRecordNames (resolveNamespaces (pruneMethods idx)))).functions
      k f' hmem
    obtain ⟨f1, hf1, _, _, e3, e4⟩ :=
      updateMemberFunctions_preserves_fields
        (updateRecordNames (resolveNamespaces (pruneMethods idx))) k f4 hf4
    have hf1' : (k, f1) ∈ (pruneMethods idx).functions.entries := hf1
    rw [he4] at hm
    have hm4 : f4.isRecordMember = true := hm
    have hm1 : f1.isRecordMember = true := e3 ▸ hm4
    have hp1 := pruneMethods_parent_present idx k f1 hf1' hm1
    rw [postPasses_records_contains, he4]
    have hpar : (pruneFnRefs
        (updateMemberFunctions (updateRecordNames (resolveNamespaces (pruneMethods idx))))
        f4).parentNamespaceID = f4.parentNamespaceID := rfl
    rw [hpar, e4]
    exact hp1

/-- Claim C4 witness: the parent-present part at an index holding one
record with one member function; the surviving function's parent record is
still present after all passes. -/
theorem postPasses_methods_and_parents_witness :
    (postPasses idxC4).records.contains fC4.parentNamespaceID = true :=
  (postPasses_methods_and_parents idxC4).2.2 22 fC4 (by decide) (by decide)

/-- Claim C4 counterexample: a record whose `methodIDs` names ID 32, which
no function entry carries (the method was filtered or never seen); after
all post-passes the reference is still there and still does not resolve —
dangling method IDs remain. -/
theorem postPasses_dangling_methodID_remains :
    ((postPasses idxDangling).records.entries.map (fun p => p.2.methodIDs)) = [[32]] ∧
    (postPasses idxDangling).functions.contains 32 = false := by
  constructor
  · decide
  · decide

/-- Membership in one `childIDs` list, unfolded. -/
theorem mem_childIDs {T : Type} (entries : List (SymbolID × T)) (nsID : SymbolID)
    (parentOf idOf : T → SymbolID) (x : SymbolID) :
    x ∈ childIDs entries nsID parentOf idOf ↔
      ∃ (k : SymbolID) (v : T), (k, v) ∈ entries ∧ parentOf v = nsID ∧ idOf v = x := by
  unfold childIDs isChild
  constructor
  · intro hx
    obtain ⟨q, hq, he⟩ := List.mem_map.mp hx
    obtain ⟨hqm, hqf⟩ := List.mem_filter.mp hq
    refine ⟨q.1, q.2, by simpa using hqm, by simpa using hqf, he⟩
  · intro h
    obtain ⟨k, v, hkv, hpar, hid⟩ := h
    refine List.mem_map.mpr ⟨(k, v), List.mem_filter.mpr ⟨hkv, ?_⟩, hid⟩
    simp [hpar]

/-- `resolveOneNamespace` keeps the ID and appends the four child lists. -/
theorem resolveOneNamespace_fields (idx : Index) (ns : NamespaceSymbol) :
    (resolveOneNamespace idx ns).ID = ns.ID ∧
    (resolveOneNamespace idx ns).records = ns.records ++
      childIDs idx.records.entries ns.ID (fun v => v.parentNamespaceID) (fun v => v.ID) ∧
    (resolveOneNamespace idx ns).enums = ns.enums ++
      childIDs idx.enums.entries ns.ID (fun v => v.parentNamespaceID) (fun v => v.ID) ∧
    (resolveOneNamespace idx ns).namespaces = ns.namespaces ++
      childIDs idx.namespaces.entries ns.ID (fun v => v.parentNamespaceID) (fun v => v.ID) ∧
    (resolveOneNamespace idx ns).usings = ns.usings ++
      childIDs idx.aliases.entries ns.ID (fun v => v.parentNamespaceID) (fun v => v.ID) :=
  ⟨rfl, rfl, rfl, rfl, rfl⟩

/-- Re-insertion of a mapped value into the mapped database. -/
theorem mem_mapValues_intro {T : Type} (g : T → T) (db : Database T) (k : SymbolID) (v : T)
    (h : (k, v) ∈ db.entries) : (k, g v) ∈ (Database.mapValues g db).entries :=
  List.mem_map.mpr ⟨(k, v), h, rfl⟩

/-- A `childIDs` list draws from the database's ID column. -/
theorem childIDs_subset_ids {T : Type} (entries : List (SymbolID × T)) (nsID : SymbolID)
    (parentOf idOf : T → SymbolID) (x : SymbolID)
    (hx : x ∈ childIDs entries nsID parentOf idOf) :
    x ∈ entries.map (fun p => idOf p.2) := by
  obtain ⟨k, v, hkv, _, hid⟩ := (mem_childIDs _ _ _ _ _).mp hx
  exact List.mem_map.mpr ⟨(k, v), hkv, hid⟩

/-- When IDs are injective over the database, `childIDs` is exactly the set
of children: all matching parents in, all others out, and only matching
parents listed. -/
theorem nsChildrenOk_childIDs {T : Type} (entries : List (SymbolID × T))
    (idOf parentOf : T → SymbolID) (nsID : SymbolID)
    (hinj : ∀ p ∈ entries, ∀ q ∈ entries, idOf p.2 = idOf q.2 → p = q) :
    nsChildrenOk entries idOf parentOf nsID (childIDs entries nsID parentOf idOf) := by
  constructor
  · intro k v hkv
    constructor
    · intro hpar
      exact (mem_childIDs _ _ _ _ _).mpr ⟨k, v, hkv, hpar, rfl⟩
    · intro hpar hmem
      obtain ⟨k0, v0, hkv0, hpar0, hid0⟩ := (mem_childIDs _ _ _ _ _).mp hmem
      have heq := hinj (k0, v0) hkv0 (k, v) hkv hid0
      have hv : v0 = v := congrArg Prod.snd heq
      exact hpar (hv ▸ hpar0)
  · intro x hx
    obtain ⟨k, v, hkv, hpar, hid⟩ := (mem_childIDs _ _ _ _ _).mp hx
    exact ⟨k, v, hkv, hid, hpar⟩

/-- The namespaces child list: the list is computed from the original
namespace entries, while the consistency statement ranges over the
(child-list-extended) entries; IDs and parent pointers agree between the
two. -/
theorem nsChildrenOk_childIDs_mapped (idx : Index) (nsID : SymbolID)
    (hinj : ∀ p ∈ idx.namespaces.entries, ∀ q ∈ idx.namespaces.entries,
      p.2.ID = q.2.ID → p = q) :
    nsChildrenOk (Database.mapValues (resolveOneNamespace idx) idx.namespaces).entries
      (fun v => v.ID) (fun v => v.parentNamespaceID) nsID
      (childIDs idx.namespaces.entries nsID (fun v => v.parentNamespaceID)
        (fun v => v.ID)) := by
  constructor
  · intro k m hm
    obtain ⟨m0, hm0, hem⟩ := mem_mapValues _ _ k m hm
    have hid : m.ID = m0.ID := by rw [hem]; rfl
    have hpar : m.parentNamespaceID = m0.parentNamespaceID := by rw [hem]; rfl
    constructor
    · intro hp
      refine (mem_childIDs _ _ _ _ _).mpr ⟨k, m0, hm0, ?_, hid.symm⟩
      rw [← hpar]
      exact hp
    · intro hp hmem
      obtain ⟨k0, v0, hkv0, hpar0, hid0⟩ := (mem_childIDs _ _ _ _ _).mp hmem
      have hid0' : v0.ID = m.ID := hid0
      have heq := hinj (k0, v0) hkv0 (k, m0) hm0 (hid0'.trans hid)
      have hv : v0 = m0 := congrArg Prod.snd heq
      apply hp
      show m.parentNamespaceID = nsID
      rw [hpar, ← hv]
      exact hpar0
  · intro x hx
    obtain ⟨k0, v0, hkv0, hpar0, hid0⟩ := (mem_childIDs _ _ _ _ _).mp hx
    exact ⟨k0, resolveOneNamespace idx v0, mem_mapValues_intro _ _ _ _ hkv0, hid0, hpar0⟩

/-- Claim C8: after `resolveNamespaces`, provided extractor-produced
namespaces start with empty child lists and symbol IDs are globally
distinct across the four databases, every record / enum / namespace / alias
whose `parentNamespaceID` equals a present namespace's ID appears in
exactly the child list matching its kind (and in no other), and conversely
every child-list entry is the ID of a symbol of that kind whose
`parentNamespaceID` equals the namespace's ID. -/
theorem resolveNamespaces_children (idx : Index)
    (hempty : ∀ (k : SymbolID) (ns : NamespaceSymbol), (k, ns) ∈ idx.namespaces.entries →
      ns.records = [] ∧ ns.enums = [] ∧ ns.namespaces = [] ∧ ns.usings = [])
    (hnodup : (allSymbolIDs idx).Nodup) :
    ∀ (k : SymbolID) (ns' : NamespaceSymbol),
      (k, ns') ∈ (resolveNamespaces idx).namespaces.entries →
      (nsChildrenOk (resolveNamespaces idx).records.entries (fun v => v.ID)
          (fun v => v.parentNamespaceID) ns'.ID ns'.records ∧
        nsChildrenOk (resolveNamespaces idx).enums.entries (fun v => v.ID)
          (fun v => v.parentNamespaceID) ns'.ID ns'.enums ∧
        nsChildrenOk (resolveNamespaces idx).namespaces.entries (fun v => v.ID)
          (fun v => v.parentNamespaceID) ns'.ID ns'.namespaces ∧
        nsChildrenOk (resolveNamespaces idx).aliases.entries (fun v => v.ID)
          (fun v => v.parentNamespaceID) ns'.ID ns'.usings) ∧
      (∀ (k2 : SymbolID) (r : RecordSymbol),
        (k2, r) ∈ (resolveNamespaces idx).records.entries → r.parentNamespaceID = ns'.ID →
        r.ID ∉ ns'.enums ∧ r.ID ∉ ns'.namespaces ∧ r.ID ∉ ns'.usings) ∧
      (∀ (k2 : SymbolID) (e : EnumSymbol),
        (k2, e) ∈ (resolveNamespaces idx).enums.entries → e.parentNamespaceID = ns'.ID →
        e.ID ∉ ns'.records ∧ e.ID ∉ ns'.namespaces ∧ e.ID ∉ ns'.usings) ∧
      (∀ (k2 : SymbolID) (m : NamespaceSymbol),
        (k2, m) ∈ (resolveNamespaces idx).namespaces.entries →
        m.parentNamespaceID = ns'.ID →
        m.ID ∉ ns'.records ∧ m.ID ∉ ns'.enums ∧ m.ID ∉ ns'.usings) ∧
      (∀ (k2 : SymbolID) (a : AliasSymbol),
        (k2, a) ∈ (resolveNamespaces idx).aliases.entries → a.parentNamespaceID = ns'.ID →
        a.ID ∉ ns'.records ∧ a.ID ∉ ns'.enums ∧ a.ID ∉ ns'.namespaces) := by
  have h1 : (idx.records.entries.map (fun p => p.2.ID) ++
      idx.enums.entries.map (fun p => p.2.ID) ++
      idx.namespaces.entries.map (fun p => p.2.ID) ++
      idx.aliases.entries.map (fun p => p.2.ID)).Nodup := hnodup
  rw [List.nodup_append] at h1
  obtain ⟨h2, hD, hdisj1⟩ := h1
  rw [List.nodup_append] at h2
  obtain ⟨h3, hC, hdisj2⟩ := h2
  rw [List.nodup_append] at h3
  obtain ⟨hA, hB, hAB⟩ := h3
  rw [List.disjoint_append_left] at hdisj2
  obtain ⟨hAC, hBC⟩ := hdisj2
  rw [List.disjoint_append_left, List.disjoint_append_left] at hdisj1
  obtain ⟨⟨hAD, hBD⟩, hCD⟩ := hdisj1
  have hinjA : ∀ p ∈ idx.records.entries, ∀ q ∈ idx.records.entries,
      p.2.ID = q.2.ID → p = q := fun p hp q hq hid =>
    List.inj_on_of_nodup_map hA hp hq hid
  have hinjB : ∀ p ∈ idx.enums.entries, ∀ q ∈ idx.enums.entries,
      p.2.ID = q.2.ID → p = q := fun p hp q hq hid =>
    List.inj_on_of_nodup_map hB hp hq hid
  have hinjC : ∀ p ∈ idx.namespaces.entries, ∀ q ∈ idx.namespaces.entries,
      p.2.ID = q.2.ID → p = q := fun p hp q hq hid =>
    List.inj_on_of_nodup_map hC hp hq hid
  have hinjD : ∀ p ∈ idx.aliases.entries, ∀ q ∈ idx.aliases.entries,
      p.2.ID = q.2.ID → p = q := fun p hp q hq hid =>
    List.inj_on_of_nodup_map hD hp hq hid
  intro k ns' hns'
  obtain ⟨ns0, hns0, hem⟩ := mem_mapValues (resolveOneNamespace idx) idx.namespaces k ns' hns'
  obtain ⟨hr0, he0, hn0, hu0⟩ := hempty k ns0 hns0
  have hID : ns'.ID = ns0.ID := by rw [hem]; rfl
  have hrec : ns'.records = childIDs idx.records.entries ns0.ID
      (fun v => v.parentNamespaceID) (fun v => v.ID) := by
    rw [hem, (resolveOneNamespace_fields idx ns0).2.1, hr0, List.nil_append]
  have henu : ns'.enums = childIDs idx.enums.entries ns0.ID
      (fun v => v.parentNamespaceID) (fun v => v.ID) := by
    rw [hem, (resolveOneNamespace_fields idx ns0).2.2.1, he0, List.nil_append]
  have hnss : ns'.namespaces = childIDs idx.namespaces.entries ns0.ID
      (fun v => v.parentNamespaceID) (fun v => v.ID) := by
    rw [hem, (resolveOneNamespace_fields idx ns0).2.2.2.1, hn0, List.nil_append]
  have husi : ns'.usings = childIDs idx.aliases.entries ns0.ID
      (fun v => v.parentNamespaceID) (fun v => v.ID) := by
    rw [hem, (resolveOneNamespace_fields idx ns0).2.2.2.2, hu0, List.nil_append]
  refine ⟨⟨?_, ?_, ?_, ?_⟩, ?_, ?_, ?_, ?_⟩
  · rw [hID, hrec]
    exact nsChildrenOk_childIDs idx.records.entries _ _ ns0.ID hinjA
  · rw [hID, henu]
    exact nsChildrenOk_childIDs idx.enums.entries _ _ ns0.ID hinjB
  · rw [hID, hnss]
    exact nsChildrenOk_childIDs_mapped idx ns0.ID hinjC
  · rw [hID, husi]
    exact nsChildrenOk_childIDs idx.aliases.entries _ _ ns0.ID hinjD
  · intro k2 r hr _
    have hxA : r.ID ∈ idx.records.entries.map (fun p => p.2.ID) :=
      List.mem_map.mpr ⟨(k2, r), hr, rfl⟩
    refine ⟨?_, ?_, ?_⟩
    · intro hmem
      rw [henu] at hmem
      exact hAB hxA (childIDs_subset_ids _ _ _ _ _ hmem)
    · intro hmem
      rw [hnss] at hmem
      exact hAC hxA (childIDs_subset_ids _ _ _ _ _ hmem)
    · intro hmem
      rw [husi] at hmem
      exact hAD hxA (childIDs_subset_ids _ _ _ _ _ hmem)
  · intro k2 e he _
    have hxB : e.ID ∈ idx.enums.entries.map (fun p => p.2.ID) :=
      List.mem_map.mpr ⟨(k2, e), he, rfl⟩
    refine ⟨?_, ?_, ?_⟩
    · intro hmem
      rw [hrec] at hmem
      exact hAB.symm hxB (childIDs_subset_ids _ _ _ _ _ hmem)
    · intro hmem
      rw [hnss] at hmem
      exact hBC hxB (childIDs_subset_ids _ _ _ _ _ hmem)
    · intro hmem
      rw [husi] at hmem
      exact hBD hxB (childIDs_subset_ids _ _ _ _ _ hmem)
  · intro k2 m hm _
    obtain ⟨m0, hm0, hemm⟩ := mem_mapValues (resolveOneNamespace idx) idx.namespaces k2 m hm
    have hxC : m.ID ∈ idx.namespaces.entries.map (fun p => p.2.ID) := by
      rw [show m.ID = m0.ID from by rw [hemm]; rfl]
      exact List.mem_map.mpr ⟨(k2, m0), hm0, rfl⟩
    refine ⟨?_, ?_, ?_⟩
    · intro hmem
      rw [hrec] at hmem
      exact hAC.symm hxC (childIDs_subset_ids _ _ _ _ _ hmem)
    · intro hmem
      rw [henu] at hmem
      exact hBC.symm hxC (childIDs_subset_ids _ _ _ _ _ hmem)
    · intro hmem
      rw [husi] at hmem
      exact hCD hxC (childIDs_subset_ids _ _ _ _ _ hmem)
  · intro k2 a ha _
    have hxD : a.ID ∈ idx.aliases.entries.map (fun p => p.2.ID) :=
      List.mem_map.mpr ⟨(k2, a), ha, rfl⟩
    refine ⟨?_, ?_, ?_⟩
    · intro hmem
      rw [hrec] at hmem
      exact hAD.symm hxD (childIDs_subset_ids _ _ _ _ _ hmem)
    · intro hmem
      rw [henu] at hmem
      exact hBD.symm hxD (childIDs_subset_ids _ _ _ _ _ hmem)
    · intro hmem
      rw [hnss] at hmem
      exact hCD.symm hxD (childIDs_subset_ids _ _ _ _ _ hmem)

/-- Claim C8 witness: the record-children consistency at a concrete index
with one namespace, one record inside it and one enum elsewhere. -/
theorem resolveNamespaces_children_witness :
    nsChildrenOk (resolveNamespaces idxC8).records.entries (fun v => v.ID)
      (fun v => v.parentNamespaceID) (resolveOneNamespace idxC8 nsC8).ID
      (resolveOneNamespace idxC8 nsC8).records :=
  ((resolveNamespaces_children idxC8
      (by
        intro k ns h
        have h' : (k, ns) ∈ [((1 : SymbolID), nsC8)] := h
        have he : (k, ns) = (1, nsC8) := by simpa using h'
        have hns : ns = nsC8 := congrArg Prod.snd he
        rw [hns]
        exact ⟨rfl, rfl, rfl, rfl⟩)
      (by decide)) 1
    (resolveOneNamespace idxC8 nsC8) (by decide)).1.1

/-- Bool contrapositive: a symbol whose recorded access is not private
cannot be privately ground-truthed, given descriptor consistency. -/
theorem priv_false_of_access (priv : SymbolID → Bool) (i : SymbolID) (acc : Access)
    (hok : priv i = true → acc = Access.priv) (hne : acc ≠ Access.priv) :
    priv i = false := by
  by_contra hc
  have ht : priv i = true := by
    revert hc
    cases priv i <;> simp
  exact hne (hok ht)

/-- Splitting membership in a one-element extension. -/
theorem mem_append_singleton {α : Type} (l : List α) (x y : α) (h : y ∈ l ++ [x]) :
    y ∈ l ∨ y = x := by
  rcases List.mem_append.mp h with h | h
  · exact Or.inl h
  · exact Or.inr (by simpa using h)

/-- A kept member descriptor is not private when the private filter is
on. -/
theorem methodKept_access (cfg : Config) (m : MethodDesc)
    (hcfg : cfg.ignorePrivateMembers = true) (h : methodKept cfg m = true) :
    m.access ≠ Access.priv := by
  unfold methodKept at h
  by_cases hc : m.isImplicit = true ∨ m.inIgnoreList = true ∨
      m.inAnonymousNamespace = true ∨ (m.access = Access.priv ∧ cfg.ignorePrivateMembers = true)
  · rw [if_pos hc] at h
    exact absurd h (by simp)
  · intro ha
    exact hc (Or.inr (Or.inr (Or.inr ⟨ha, hcfg⟩)))

/-- The function matcher preserves the private-filter invariant. -/
theorem privInv_funcStep (cfg : Config) (priv : SymbolID → Bool) (idx : Index)
    (c : FuncCand) (hcfg : cfg.ignorePrivateMembers = true)
    (hok : priv c.id = true → c.access = Access.priv) (hinv : PrivInv priv idx) :
    PrivInv priv (functionMatcherRun cfg idx c) := by
  unfold functionMatcherRun
  split
  · exact hinv
  split
  · exact hinv
  simp only []
  split
  next hguard => exact hinv
  next hguard =>
    split
    · exact hinv
    · have hne : c.access ≠ Access.priv := fun ha =>
        hguard (Or.inr (Or.inr (Or.inr (Or.inr ⟨ha, hcfg⟩))))
      refine ⟨?_, hinv.2.1, hinv.2.2⟩
      intro k f hkf
      have hkf' : (k, f) ∈ (bumpFunctions idx).functions.entries ++ [(c.id, funcSymbolOf c)] := hkf
      rcases mem_append_singleton _ _ _ hkf' with h | h
      · exact hinv.1 k f h
      · have hk : k = c.id := congrArg Prod.fst h
        have hf : f = funcSymbolOf c := congrArg Prod.snd h
        constructor
        · rw [hk]
          exact priv_false_of_access priv c.id c.access hok hne
        · rw [hf]
          exact hne

/-- The using matcher preserves the private-filter invariant. -/
theorem privInv_aliasStep (cfg : Config) (priv : SymbolID → Bool) (idx : Index)
    (c : AliasCand) (hcfg : cfg.ignorePrivateMembers = true)
    (hok : priv c.id = true → c.access = Access.priv) (hinv : PrivInv priv idx) :
    PrivInv priv (usingMatcherRun cfg idx c) := by
  unfold usingMatcherRun
  split
  · exact hinv
  split
  · exact hinv
  simp only []
  split
  next hguard => exact hinv
  next hguard =>
    split
    · exact hinv
    · have hne : c.access ≠ Access.priv := fun ha =>
        hguard (Or.inr (Or.inr ⟨ha, hcfg⟩))
      refine ⟨hinv.1, ?_, hinv.2.2⟩
      intro k a hka
      have hka' : (k, a) ∈ (bumpAliases idx).aliases.entries ++ [(c.id, ({ ID := c.id, name := c.name, access := c.access, isRecordMember := c.isCXXClassMember, parentNamespaceID := c.parentNamespaceID, target := aliasTarget c.kind } : AliasSymbol))] := hka
      rcases mem_append_singleton _ _ _ hka' with h | h
      · exact hinv.2.1 k a h
      · have hk : k = c.id := congrArg Prod.fst h
        have hacc : a.access = c.access := congrArg (fun p => p.2.access) h
        constructor
        · rw [hk]
          exact priv_false_of_access priv c.id c.access hok hne
        · rw [hacc]
          exact hne

/-- The enum matcher preserves the private-filter invariant (it touches
only the enums database). -/
theorem privInv_enumStep (priv : SymbolID → Bool) (idx : Index) (c : EnumCand)
    (hinv : PrivInv priv idx) : PrivInv priv (enumMatcherRun idx c) := by
  unfold enumMatcherRun
  simp only []
  split
  · exact hinv
  split
  · exact hinv
  · exact hinv

/-- The namespace matcher preserves the private-filter invariant (it
touches only the namespaces database). -/
theorem privInv_nsStep (priv : SymbolID → Bool) (idx : Index) (c : NsCand)
    (hinv : PrivInv priv idx) : PrivInv priv (namespaceMatcherRun idx c) := by
  unfold namespaceMatcherRun
  simp only []
  split
  · exact hinv
  split
  · exact hinv
  · exact hinv

/-- Every member the record extractor stores passed its private filter:
method IDs and alias IDs come from kept descriptors (hence non-private
ones, when the filter is on), and member variables are stored with a
non-private access. -/
theorem buildRecordSymbol_members (cfg : Config) (c : RecCand)
    (hcfg : cfg.ignorePrivateMembers = true) :
    (∀ mid ∈ (buildRecordSymbol cfg c).methodIDs,
      ∃ m : MethodDesc, (m ∈ c.methods ∨ DeclDesc.ftd m ∈ c.decls) ∧
        m.access ≠ Access.priv ∧ m.id = mid) ∧
    (∀ aid ∈ (buildRecordSymbol cfg c).aliasIDs,
      ∃ m : MethodDesc, DeclDesc.aliasD m ∈ c.decls ∧ m.access ≠ Access.priv ∧
        m.id = aid) ∧
    (∀ v ∈ (buildRecordSymbol cfg c).vars, v.access ≠ Access.priv) := by
  refine ⟨?_, ?_, ?_⟩
  · intro mid hmid
    simp only [buildRecordSymbol] at hmid
    rcases List.mem_append.mp hmid with h | h
    · obtain ⟨m, hm, hid⟩ := List.mem_map.mp h
      obtain ⟨hmm, hkept⟩ := List.mem_filter.mp hm
      exact ⟨m, Or.inl hmm, methodKept_access cfg m hcfg hkept, hid⟩
    · obtain ⟨d, hd, hsome⟩ := List.mem_filterMap.mp h
      cases d with
      | ftd m =>
        have hsome' : (if methodKept cfg m = true then Option.some m.id
            else Option.none) = Option.some mid := hsome
        by_cases hkept : methodKept cfg m = true
        · rw [if_pos hkept] at hsome'
          exact ⟨m, Or.inr hd, methodKept_access cfg m hcfg hkept,
            Option.some.inj hsome'⟩
        · rw [if_neg hkept] at hsome'
          exact Option.noConfusion hsome'
      | aliasD m => exact Option.noConfusion hsome
      | varD v => exact Option.noConfusion hsome
      | otherD => exact Option.noConfusion hsome
  · intro aid haid
    simp only [buildRecordSymbol] at haid
    obtain ⟨d, hd, hsome⟩ := List.mem_filterMap.mp haid
    cases d with
    | ftd m => exact Option.noConfusion hsome
    | aliasD m =>
      have hsome' : (if methodKept cfg m = true then Option.some m.id
          else Option.none) = Option.some aid := hsome
      by_cases hkept : methodKept cfg m = true
      · rw [if_pos hkept] at hsome'
        exact ⟨m, hd, methodKept_access cfg m hcfg hkept, Option.some.inj hsome'⟩
      · rw [if_neg hkept] at hsome'
        exact Option.noConfusion hsome'
    | varD v => exact Option.noConfusion hsome
    | otherD => exact Option.noConfusion hsome
  · intro v hv
    simp only [buildRecordSymbol] at hv
    rcases List.mem_append.mp hv with h | h
    · obtain ⟨fd, _, hsome⟩ := List.mem_filterMap.mp h
      by_cases hP : fd.access = Access.priv ∧ cfg.ignorePrivateMembers = true
      · rw [if_pos hP] at hsome
        exact Option.noConfusion hsome
      · rw [if_neg hP] at hsome
        have hveq := Option.some.inj hsome
        have hacc : v.access = fd.access := by rw [← hveq]
        intro haP
        rw [hacc] at haP
        exact hP ⟨haP, hcfg⟩
    · obtain ⟨d, _, hsome⟩ := List.mem_filterMap.mp h
      cases d with
      | ftd m => exact Option.noConfusion hsome
      | aliasD m => exact Option.noConfusion hsome
      | varD vd =>
        have hsome' : (if vd.access = Access.priv ∧ cfg.ignorePrivateMembers = true
            then Option.none
            else Option.some ({ isStatic := true, name := vd.name, defaultValue := (if vd.hasInit = true then vd.initText else []), access := vd.access, type := (if vd.isAnonTyped = true then { name := anonTypeName, id := nullID } else { name := vd.typeName, id := vd.typeId }) } : MemberVariable)) =
            Option.some v := hsome
        by_cases hP : vd.access = Access.priv ∧ cfg.ignorePrivateMembers = true
        · rw [if_pos hP] at hsome'
          exact Option.noConfusion hsome'
        · rw [if_neg hP] at hsome'
          have hveq := Option.some.inj hsome'
          have hacc : v.access = vd.access := by rw [← hveq]
          intro haP
          rw [hacc] at haP
          exact hP ⟨haP, hcfg⟩
      | otherD => exact Option.noConfusion hsome

/-- The record matcher preserves the private-filter invariant. -/
theorem privInv_recStep (cfg : Config) (priv : SymbolID → Bool) (idx : Index)
    (c : RecCand) (hcfg : cfg.ignorePrivateMembers = true)
    (hok : (∀ m ∈ c.methods, descOK priv m) ∧
      (∀ d ∈ c.decls,
        match d with
        | DeclDesc.ftd m => descOK priv m
        | DeclDesc.aliasD m => descOK priv m
        | _ => True))
    (hinv : PrivInv priv idx) : PrivInv priv (recordMatcherRun cfg idx c) := by
  unfold recordMatcherRun
  simp only []
  by_cases h1 : c.isCompleteDefinition = false ∨ c.validSourceRange = false ∨
      c.inIgnoreList = true ∨ c.inAnonymousNamespace = true
  · rw [if_pos h1]
    exact hinv
  rw [if_neg h1]
  by_cases h2 : c.nameAsWritten = [] ∧
      (if c.nameAsWritten = [] then c.typedefNameForAnon else []) = []
  · rw [if_pos h2]
    exact hinv
  rw [if_neg h2]
  by_cases h3 : c.isSpecializationWithoutTypeAsWritten = true
  · rw [if_pos h3]
    exact hinv
  rw [if_neg h3]
  by_cases h4 : (bumpRecords idx).records.contains c.id = true
  · rw [if_pos h4]
    exact hinv
  · rw [if_neg h4]
    refine ⟨hinv.1, hinv.2.1, ?_⟩
    intro k r hkr
    have hkr' : (k, r) ∈ (bumpRecords idx).records.entries ++
        [(c.id, buildRecordSymbol cfg c)] := hkr
    rcases mem_append_singleton _ _ _ hkr' with h | h
    · exact hinv.2.2 k r h
    · have hr : r = buildRecordSymbol cfg c := congrArg Prod.snd h
      obtain ⟨hm, ha, hv⟩ := buildRecordSymbol_members cfg c hcfg
      rw [hr]
      refine ⟨?_, ?_, hv⟩
      · intro mid hmid
        obtain ⟨m, hprov, hne, hid⟩ := hm mid hmid
        have hdok : descOK priv m := by
          rcases hprov with hp | hp
          · exact hok.1 m hp
          · exact hok.2 (DeclDesc.ftd m) hp
        rw [← hid]
        exact priv_false_of_access priv m.id m.access hdok hne
      · intro aid haid
        obtain ⟨m, hp, hne, hid⟩ := ha aid haid
        have hdok : descOK priv m := hok.2 (DeclDesc.aliasD m) hp
        rw [← hid]
        exact priv_false_of_access priv m.id m.access hdok hne

/-- One matcher callback preserves the private-filter invariant when its
candidate data is consistent with the ground truth. -/
theorem privInv_stepEvent (cfg : Config) (priv : SymbolID → Bool) (idx : Index)
    (e : Event) (hcfg : cfg.ignorePrivateMembers = true) (hok : EventOK priv e)
    (hinv : PrivInv priv idx) : PrivInv priv (stepEvent cfg idx e) := by
  cases e with
  | funcEv c => exact privInv_funcStep cfg priv idx c hcfg hok hinv
  | recEv c => exact privInv_recStep cfg priv idx c hcfg hok hinv
  | enumEv c => exact privInv_enumStep priv idx c hinv
  | nsEv c => exact privInv_nsStep priv idx c hinv
  | aliasEv c => exact privInv_aliasStep cfg priv idx c hcfg hok hinv

/-- The empty index satisfies the private-filter invariant. -/
theorem privInv_empty (priv : SymbolID → Bool) : PrivInv priv emptyIndex := by
  refine ⟨?_, ?_, ?_⟩ <;> intro k v h <;> exact absurd h (List.not_mem_nil _)

/-- Running every matcher callback preserves the private-filter invariant. -/
theorem privInv_processEvents (cfg : Config) (priv : SymbolID → Bool)
    (events : List Event) (idx : Index) (hcfg : cfg.ignorePrivateMembers = true)
    (hok : ∀ e ∈ events, EventOK priv e) (hinv : PrivInv priv idx) :
    PrivInv priv (processEvents cfg events idx) :=
  foldl_inv (stepEvent cfg) (PrivInv priv) events idx hinv
    (fun b e he hb => privInv_stepEvent cfg priv b e hcfg (hok e he) hb)

/-- `pruneMethods` preserves the private-filter invariant: the function list
only shrinks, records and aliases are untouched. -/
theorem privInv_pruneMethods (priv : SymbolID → Bool) (idx : Index)
    (hinv : PrivInv priv idx) : PrivInv priv (pruneMethods idx) := by
  refine ⟨?_, hinv.2.1, hinv.2.2⟩
  intro k f h
  exact hinv.1 k f (pruneMethods_subset idx k f h)

/-- `resolveNamespaces` preserves the private-filter invariant: it rewrites
only the namespaces database, which the invariant does not mention. -/
theorem privInv_resolveNamespaces (priv : SymbolID → Bool) (idx : Index)
    (hinv : PrivInv priv idx) : PrivInv priv (resolveNamespaces idx) := hinv

/-- `updateOneRecordName` changes only the proto. -/
theorem updateOneRecordName_members (c : RecordSymbol) :
    (updateOneRecordName c).methodIDs = c.methodIDs ∧
    (updateOneRecordName c).aliasIDs = c.aliasIDs ∧
    (updateOneRecordName c).vars = c.vars := by
  unfold updateOneRecordName
  split <;> exact ⟨rfl, rfl, rfl⟩

/-- `updateRecordNames` preserves the private-filter invariant: every record
keeps its method IDs, alias IDs and member variables. -/
theorem privInv_updateRecordNames (priv : SymbolID → Bool) (idx : Index)
    (hinv : PrivInv priv idx) : PrivInv priv (updateRecordNames idx) := by
  refine ⟨hinv.1, hinv.2.1, ?_⟩
  intro k r h
  obtain ⟨r0, hr0, hre⟩ := mem_mapValues updateOneRecordName idx.records k r h
  obtain ⟨h1, h2, h3⟩ := updateOneRecordName_members r0
  rw [hre, h1, h2, h3]
  exact hinv.2.2 k r0 hr0

/-- `updateMemberFunctions` preserves the private-filter invariant: every
rewritten function keeps its access, and records and aliases are
untouched. -/
theorem privInv_updateMemberFunctions (priv : SymbolID → Bool) (idx : Index)
    (hinv : PrivInv priv idx) : PrivInv priv (updateMemberFunctions idx) := by
  refine ⟨?_, hinv.2.1, hinv.2.2⟩
  intro k f' h
  obtain ⟨f, hf, _, hacc, _, _⟩ := updateMemberFunctions_preserves_fields idx k f' h
  obtain ⟨g1, g2⟩ := hinv.1 k f hf
  rw [hacc]
  exact ⟨g1, g2⟩

/-- `pruneTypeRefs` preserves the private-filter invariant: it rewrites only
`TypeRef` ids, never an access, a key, a method ID or an alias ID. -/
theorem privInv_pruneTypeRefs (priv : SymbolID → Bool) (idx : Index)
    (hinv : PrivInv priv idx) : PrivInv priv (pruneTypeRefs idx) := by
  refine ⟨?_, ?_, ?_⟩
  · intro k f' h
    obtain ⟨f, hf, he⟩ := mem_mapValues (pruneFnRefs idx) idx.functions k f' h
    obtain ⟨g1, g2⟩ := hinv.1 k f hf
    have hacc : f'.access = f.access := by
      rw [he]
      rfl
    rw [hacc]
    exact ⟨g1, g2⟩
  · intro k a h
    obtain ⟨a0, ha0, he⟩ := mem_mapValues (pruneAliasRefs idx) idx.aliases k a h
    obtain ⟨g1, g2⟩ := hinv.2.1 k a0 ha0
    have hacc : a.access = a0.access := by
      rw [he]
      rfl
    rw [hacc]
    exact ⟨g1, g2⟩
  · intro k r h
    obtain ⟨r0, hr0, he⟩ := mem_mapValues (pruneRecRefs idx) idx.records k r h
    obtain ⟨g1, g2, g3⟩ := hinv.2.2 k r0 hr0
    have hm : r.methodIDs = r0.methodIDs := by
      rw [he]
      rfl
    have ha : r.aliasIDs = r0.aliasIDs := by
      rw [he]
      rfl
    refine ⟨by rw [hm]; exact g1, by rw [ha]; exact g2, ?_⟩
    intro v hv
    have hv' : v ∈ r0.vars.map (fun w => { w with type := pruneRef idx w.type }) := by
      rw [he] at hv
      exact hv
    obtain ⟨v0, hv0, hvz⟩ := List.mem_map.mp hv'
    have hacc : v.access = v0.access := by rw [← hvz]
    rw [hacc]
    exact g3 v0 hv0

/-- The whole post-pass sequence preserves the private-filter invariant. -/
theorem privInv_postPasses (priv : SymbolID → Bool) (idx : Index)
    (hinv : PrivInv priv idx) : PrivInv priv (postPasses idx) :=
  privInv_pruneTypeRefs priv _
    (privInv_updateMemberFunctions priv _
      (privInv_updateRecordNames priv _
        (privInv_resolveNamespaces priv _
          (privInv_pruneMethods priv _ hinv))))

/-- Claim C2 (amended): with `ignorePrivateMembers = true`, for any ground
truth `priv : SymbolID → Bool` consistent with the candidate data of every
callback, the final index contains no private function entry, no private
alias entry, and no record listing a private method ID, a private alias ID
or a private member variable.  The original claim additionally covers record
and enum entries themselves; that part is false — the record and enum
extractors never consult the candidate's own access specifier, so a private
nested record or enum is still indexed (see the separate counterexample). -/
theorem pipeline_private_filtered (cfg : Config) (priv : SymbolID → Bool)
    (events : List Event) (hcfg : cfg.ignorePrivateMembers = true)
    (hok : ∀ e ∈ events, EventOK priv e) :
    PrivInv priv (runPipeline cfg events) :=
  privInv_postPasses priv _
    (privInv_processEvents cfg priv events emptyIndex hcfg hok (privInv_empty priv))

/-- Witness for the amended claim: one public function candidate run under
the private filter, against the all-public ground truth. -/
theorem pipeline_private_filtered_witness :
    cfgPrivate.ignorePrivateMembers = true ∧
    PrivInv privNone (runPipeline cfgPrivate [Event.funcEv fnC2]) := by
  refine ⟨rfl, ?_⟩
  apply pipeline_private_filtered cfgPrivate privNone [Event.funcEv fnC2] rfl
  intro e he
  have he' : e = Event.funcEv fnC2 := by simpa using he
  rw [he']
  intro h
  exact absurd h (by decide)

/-- Claim C2 counterexample: the claim says no private symbol appears
anywhere in the final index, including as a record entry.  But
`RecordMatcher::run` never reads the record's own access specifier, so with
`ignorePrivateMembers = true` a private nested record (`class Outer { class
Inner {}; };`) is still indexed, with `access = private` stored on its
entry. -/
theorem private_nested_record_still_indexed :
    cfgPrivate.ignorePrivateMembers = true ∧
    privRecCand.access = Access.priv ∧
    (runPipeline cfgPrivate [Event.recEv privRecCand]).records.contains 42 = true ∧
    ((runPipeline cfgPrivate [Event.recEv privRecCand]).records.entries.map
      (fun p => p.2.access)) = [Access.priv] := by
  refine ⟨rfl, rfl, ?_, ?_⟩ <;> decide
